import Mathlib

/-!
# Verification of the top-1k-clash SQL database ETL core

A shallow embedding of the deck canonicalization / match deduplication /
archetype classification / aggregation pipeline of the repository
(`src/clashdb/hash_utils.py`, `src/analysist/deck_type.py`,
`src/analysist/battle_filters.py`, `scripts/etl_snapshot_top20.py`),
together with theorems settling the specification claims about it.

Machine integers are modelled as `Nat`/`Int` with explicit `% 2^32` where
the SHA-1 digest needs 32-bit wraparound; Python `float` elixir values are
modelled as `ℚ` (all arithmetic the classifier performs on realistic card
costs is exact in both); fallible extraction returns `Option`.
-/

namespace ClashDB

/-! ## SHA-1 (faithful model of `hashlib.sha1(...).hexdigest()`)

The repository hashes UTF-8 encoded strings with SHA-1 and prints the
digest as 40 lowercase hex characters.  We implement the full algorithm
over `Nat` (words reduced mod `2^32`).
-/

/-- One UTF-8 code unit sequence for a character (as byte values),
faithful to `str.encode("utf-8")`. -/
def charUtf8 (c : Char) : List Nat :=
  let n := c.toNat
  if n < 0x80 then [n]
  else if n < 0x800 then [0xC0 + n / 64, 0x80 + n % 64]
  else if n < 0x10000 then
    [0xE0 + n / 4096, 0x80 + (n / 64) % 64, 0x80 + n % 64]
  else
    [0xF0 + n / 262144, 0x80 + (n / 4096) % 64, 0x80 + (n / 64) % 64, 0x80 + n % 64]

/-- UTF-8 bytes of a string. -/
def strBytes (s : String) : List Nat :=
  s.data.flatMap charUtf8

/-- 32-bit left rotation. -/
def rotl32 (n x : Nat) : Nat :=
  ((x <<< n) ||| (x >>> (32 - n))) % 4294967296

/-- `k` bytes of `n`, big-endian. -/
def beBytes (k n : Nat) : List Nat :=
  (List.range k).map fun i => (n >>> (8 * (k - 1 - i))) % 256

/-- SHA-1 message padding: append `0x80`, zero-pad to 56 mod 64, then the
64-bit big-endian bit length. -/
def sha1Pad (msg : List Nat) : List Nat :=
  let len := msg.length
  let zeros := (120 - ((len + 1) % 64)) % 64
  msg ++ [0x80] ++ List.replicate zeros 0 ++ beBytes 8 (len * 8)

/-- Split a byte list into 64-byte blocks (structural recursion on a fuel
bound so the kernel can evaluate it; `fuel = length` always suffices since
every step consumes at least one byte). -/
def toBlocksFuel : Nat → List Nat → List (List Nat)
  | _, [] => []
  | 0, _ => []
  | fuel + 1, l => l.take 64 :: toBlocksFuel fuel (l.drop 64)

/-- Split a byte list into 64-byte blocks. -/
def toBlocks (l : List Nat) : List (List Nat) :=
  toBlocksFuel l.length l

/-- The 16 big-endian 32-bit words of a 64-byte block. -/
def blockWords (blk : List Nat) : List Nat :=
  (List.range 16).map fun i =>
    (blk.getD (4 * i) 0) * 16777216 + (blk.getD (4 * i + 1) 0) * 65536 +
      (blk.getD (4 * i + 2) 0) * 256 + blk.getD (4 * i + 3) 0

/-- Extend the 16 block words to the 80-word SHA-1 message schedule. -/
def sha1Schedule (w16 : List Nat) : List Nat :=
  (List.range 64).foldl
    (fun w i =>
      w ++ [rotl32 1 ((w.getD (i + 13) 0) ^^^ (w.getD (i + 8) 0) ^^^
        (w.getD (i + 2) 0) ^^^ (w.getD i 0))])
    w16

/-- One SHA-1 compression round. -/
def sha1Round (w : List Nat) (st : Nat × Nat × Nat × Nat × Nat) (i : Nat) :
    Nat × Nat × Nat × Nat × Nat :=
  let (a, b, c, d, e) := st
  let f :=
    if i < 20 then (b &&& c) ||| ((4294967295 - b) &&& d)
    else if i < 40 then b ^^^ c ^^^ d
    else if i < 60 then (b &&& c) ||| (b &&& d) ||| (c &&& d)
    else b ^^^ c ^^^ d
  let k :=
    if i < 20 then 0x5A827999
    else if i < 40 then 0x6ED9EBA1
    else if i < 60 then 0x8F1BBCDC
    else 0xCA62C1D6
  let temp := (rotl32 5 a + f + e + k + w.getD i 0) % 4294967296
  (temp, a, rotl32 30 b, c, d)

/-- Process one 64-byte block into the running state `(h0,...,h4)`. -/
def sha1Block (h : Nat × Nat × Nat × Nat × Nat) (blk : List Nat) :
    Nat × Nat × Nat × Nat × Nat :=
  let w := sha1Schedule (blockWords blk)
  let (h0, h1, h2, h3, h4) := h
  let (a, b, c, d, e) := (List.range 80).foldl (sha1Round w) (h0, h1, h2, h3, h4)
  ((h0 + a) % 4294967296, (h1 + b) % 4294967296, (h2 + c) % 4294967296,
    (h3 + d) % 4294967296, (h4 + e) % 4294967296)

/-- Lowercase hex digit. -/
def hexDigit (n : Nat) : Char :=
  if n < 10 then Char.ofNat (48 + n) else Char.ofNat (87 + n)

/-- 8 lowercase hex digits of a 32-bit word. -/
def hex32 (n : Nat) : List Char :=
  (List.range 8).map fun i => hexDigit ((n >>> (4 * (7 - i))) % 16)

/-- SHA-1 digest of a byte list, as a 40-character lowercase hex string. -/
def sha1HexBytes (msg : List Nat) : String :=
  let (h0, h1, h2, h3, h4) :=
    (toBlocks (sha1Pad msg)).foldl sha1Block
      (0x67452301, 0xEFCDAB89, 0x98BADCFE, 0x10325476, 0xC3D2E1F0)
  ⟨hex32 h0 ++ hex32 h1 ++ hex32 h2 ++ hex32 h3 ++ hex32 h4⟩

/-- `hashlib.sha1(s.encode("utf-8")).hexdigest()`. -/
def sha1Hex (s : String) : String :=
  sha1HexBytes (strBytes s)

set_option maxRecDepth 100000

/-! ## Python string primitives

Models of the `str` methods the pipeline uses: `.upper()`, `.strip()`,
`.startswith("#")` (via `head?`).  `upChar` is ASCII case mapping and
`Char.isWhitespace` covers the whitespace the repository's inputs contain.
-/

/-- ASCII uppercase mapping of one character (`str.upper`). -/
def upChar (c : Char) : Char :=
  if 97 ≤ c.toNat ∧ c.toNat ≤ 122 then Char.ofNat (c.toNat - 32) else c

/-- `str.upper()`. -/
def pyUpper (s : String) : String :=
  ⟨s.data.map upChar⟩

/-- Remove leading whitespace. -/
def stripL (l : List Char) : List Char :=
  l.dropWhile Char.isWhitespace

/-- Remove trailing whitespace (structural recursion). -/
def stripR : List Char → List Char
  | [] => []
  | c :: cs =>
    match stripR cs with
    | [] => if c.isWhitespace then [] else [c]
    | r => c :: r

/-- `str.strip()`. -/
def pyStrip (s : String) : String :=
  ⟨stripR (stripL s.data)⟩

/-! ## JSON serialization as `json.dumps(..., sort_keys=True, separators=(",", ":"))`
produces it for the fixed-shape dedup payload of `match_hash`. -/

/-- Four lowercase hex digits. -/
def hex4 (n : Nat) : String :=
  ⟨[hexDigit ((n >>> 12) % 16), hexDigit ((n >>> 8) % 16),
    hexDigit ((n >>> 4) % 16), hexDigit (n % 16)]⟩

/-- JSON escaping of one character, as CPython's
`json.encoder.py_encode_basestring_ascii` does it (shorthand escapes,
`\uXXXX` outside `0x20..0x7E`, surrogate pairs beyond the BMP). -/
def escChar (c : Char) : String :=
  if c = '"' then "\\\""
  else if c = '\\' then "\\\\"
  else if c.toNat = 8 then "\\b"
  else if c.toNat = 9 then "\\t"
  else if c.toNat = 10 then "\\n"
  else if c.toNat = 12 then "\\f"
  else if c.toNat = 13 then "\\r"
  else if c.toNat < 32 ∨ c.toNat > 126 then
    if c.toNat < 65536 then "\\u" ++ hex4 c.toNat
    else
      "\\u" ++ hex4 (55296 + (c.toNat - 65536) / 1024) ++
        "\\u" ++ hex4 (56320 + (c.toNat - 65536) % 1024)
  else String.singleton c

/-- A JSON string literal. -/
def jsonStr (s : String) : String :=
  "\"" ++ String.join (s.data.map escChar) ++ "\""

/-! ## Raw data model

The JSON records the pipeline consumes, shallowly typed: a missing or
`null` field is `none`.  Only fields the core reads are modelled.
-/

/-- One entry of a participant's `cards` list. -/
structure RawCard where
  id : Option Int
  name : Option String
  evolutionLevel : Option Int
deriving DecidableEq

/-- One entry of a battle's `team`/`opponent` list. -/
structure RawParticipant where
  tag : Option String
  crowns : Option Int
  cards : Option (List RawCard)
deriving DecidableEq

/-- A raw battle-log record (fields used by the core). `battleType` models
the top-level `"type"` field. -/
structure RawBattle where
  battleTime : Option String
  gameModeId : Option Int
  gameModeName : Option String
  battleType : Option String
  team : Option (List RawParticipant)
  opponent : Option (List RawParticipant)
deriving DecidableEq

/-- Python truthiness filter for an optional int (`x or ...` treats 0 as falsy). -/
def truthyInt (o : Option Int) : Option Int :=
  o.bind fun i => if i = 0 then none else some i

/-- Python truthiness filter for an optional string (`x or ...` treats "" as falsy). -/
def truthyStr (o : Option String) : Option String :=
  o.bind fun s => if s = "" then none else some s

/-! ## `src/clashdb/hash_utils.py` -/

/-- Lexicographic (code-point) order on strings, as Python compares
them, over the underlying character lists. -/
def strLtL (a b : String) : Prop :=
  List.Lex (· < ·) a.data b.data

instance : DecidableRel strLtL := fun a b => by
  unfold strLtL
  infer_instance

/-- The lexicographic (Python tuple) order `(card_id, variant)` pairs are
sorted by in `canonical_deck_signature`. -/
def pairLe (x y : String × String) : Prop :=
  strLtL x.1 y.1 ∨ (x.1 = y.1 ∧ (strLtL x.2 y.2 ∨ x.2 = y.2))

instance : DecidableRel pairLe := fun x y => by
  unfold pairLe
  infer_instance

instance : IsTrans (String × String) pairLe := by
  constructor
  intro a b c hab hbc
  rcases hab with h1 | ⟨h1, h2⟩ <;> rcases hbc with h3 | ⟨h3, h4⟩
  · exact Or.inl (trans_of (List.Lex ((· < ·) : Char → Char → Prop)) h1 h3)
  · exact Or.inl (h3 ▸ h1)
  · exact Or.inl (h1 ▸ h3)
  · refine Or.inr ⟨h1.trans h3, ?_⟩
    rcases h2 with h2 | h2 <;> rcases h4 with h4 | h4
    · exact Or.inl (trans_of (List.Lex ((· < ·) : Char → Char → Prop)) h2 h4)
    · exact Or.inl (h4 ▸ h2)
    · exact Or.inl (h2 ▸ h4)
    · exact Or.inr (h2.trans h4)

instance : IsTotal (String × String) pairLe := by
  constructor
  intro a b
  rcases trichotomous_of (List.Lex ((· < ·) : Char → Char → Prop)) a.1.data b.1.data
    with h | h | h
  · exact Or.inl (Or.inl h)
  · have he : a.1 = b.1 := String.ext h
    rcases trichotomous_of (List.Lex ((· < ·) : Char → Char → Prop)) a.2.data b.2.data
      with h2 | h2 | h2
    · exact Or.inl (Or.inr ⟨he, Or.inl h2⟩)
    · exact Or.inl (Or.inr ⟨he, Or.inr (String.ext h2)⟩)
    · exact Or.inr (Or.inr ⟨he.symm, Or.inl h2⟩)
  · exact Or.inr (Or.inl h)

instance : IsAntisymm (String × String) pairLe := by
  constructor
  intro a b hab hba
  rcases hab with h1 | ⟨h1, h2⟩
  · rcases hba with h3 | ⟨h3, h4⟩
    · exact (asymm_of (List.Lex ((· < ·) : Char → Char → Prop)) h1 h3).elim
    · rw [h3] at h1
      exact (irrefl_of (List.Lex ((· < ·) : Char → Char → Prop)) _ h1).elim
  · rcases hba with h3 | ⟨h3, h4⟩
    · rw [h1] at h3
      exact (irrefl_of (List.Lex ((· < ·) : Char → Char → Prop)) _ h3).elim
    · refine Prod.ext h1 ?_
      rcases h2 with h2 | h2
      · rcases h4 with h4 | h4
        · exact (asymm_of (List.Lex ((· < ·) : Char → Char → Prop)) h2 h4).elim
        · rw [h4] at h2
          exact (irrefl_of (List.Lex ((· < ·) : Char → Char → Prop)) _ h2).elim
      · exact h2

/-- `canonical_deck_signature` (hash_utils.py lines 11-22): sort the
`(card_id, variant)` string pairs by the tuple order and join as
`id:variant` segments with `|`.  (`str()` applied to a value that is
already a string is the identity.) -/
def canonical_deck_signature (cards : List (String × String)) : String :=
  let normalized := cards.map fun cv => (cv.1, cv.2)
  let sorted := List.insertionSort pairLe normalized
  String.intercalate "|" (sorted.map fun cv => cv.1 ++ ":" ++ cv.2)

/-- `deck_hash_from_signature` (hash_utils.py lines 25-26). -/
def deck_hash_from_signature (sig : String) : String :=
  sha1Hex sig

/-- The order `side_payload` sorts by: the `tag` component only (Python's
sort is stable; so is `List.insertionSort`). -/
def tagLe (x y : String × Int) : Prop :=
  strLtL x.1 y.1 ∨ x.1 = y.1

instance : DecidableRel tagLe := fun x y => by
  unfold tagLe
  infer_instance

instance : IsTrans (String × Int) tagLe := by
  constructor
  intro a b c hab hbc
  rcases hab with h1 | h1 <;> rcases hbc with h2 | h2
  · exact Or.inl (trans_of (List.Lex ((· < ·) : Char → Char → Prop)) h1 h2)
  · exact Or.inl (h2 ▸ h1)
  · exact Or.inl (h1 ▸ h2)
  · exact Or.inr (h1.trans h2)

instance : IsTotal (String × Int) tagLe := by
  constructor
  intro a b
  rcases trichotomous_of (List.Lex ((· < ·) : Char → Char → Prop)) a.1.data b.1.data
    with h | h | h
  · exact Or.inl (Or.inl h)
  · exact Or.inl (Or.inr (String.ext h))
  · exact Or.inr (Or.inl h)

/-- `side_payload` inside `match_hash`: uppercased tag and defaulted
crowns for each entry, sorted by tag. -/
def sidePayload (side : Option (List RawParticipant)) : List (String × Int) :=
  match side with
  | none => []
  | some ps =>
    List.insertionSort tagLe
      (ps.map fun p => (pyUpper ((p.tag).getD ""), (p.crowns).getD 0))

/-- JSON of one `{"crowns": ..., "tag": ...}` entry (keys sorted). -/
def crownTagJson (p : String × Int) : String :=
  "\x7b\"crowns\":" ++ toString p.2 ++ ",\"tag\":" ++ jsonStr p.1 ++ "\x7d"

/-- JSON of one side's payload list. -/
def sideJson (l : List (String × Int)) : String :=
  "[" ++ String.intercalate "," (l.map crownTagJson) ++ "]"

/-- The canonical payload blob `match_hash` serializes
(`json.dumps(payload, sort_keys=True, separators=(",", ":"))`; the sorted
key order is `battleTime`, `mode`, `opponent`, `team`). -/
def matchBlob (battle : RawBattle) : String :=
  let battle_time := (battle.battleTime).getD ""
  let mode_key :=
    match truthyInt battle.gameModeId with
    | some i => toString i
    | none =>
      match truthyStr battle.gameModeName with
      | some s => s
      | none => (truthyStr battle.battleType).getD ""
  "\x7b\"battleTime\":" ++ jsonStr battle_time ++ ",\"mode\":" ++ jsonStr mode_key ++
    ",\"opponent\":" ++ sideJson (sidePayload battle.opponent) ++
    ",\"team\":" ++ sideJson (sidePayload battle.team) ++ "\x7d"

/-- `match_hash` (hash_utils.py lines 29-65). -/
def match_hash (battle : RawBattle) : String :=
  sha1Hex (matchBlob battle)

/-! ## `src/analysist/battle_filters.py` -/

/-- Mode whitelist of `battle_filters.py`. -/
def RANKED_MODE_ID_WHITELIST : List Int :=
  [72000006, 72000464]

/-- `is_ranked_1v1_battle`: both sides are singleton lists and the game
mode id is whitelisted. -/
def is_ranked_1v1_battle (battle : RawBattle) : Bool :=
  if ((battle.team).getD []).length = 1 ∧ ((battle.opponent).getD []).length = 1 then
    match battle.gameModeId with
    | some i => decide (i ∈ RANKED_MODE_ID_WHITELIST)
    | none => false
  else false

/-! ## `src/analysist/deck_type.py`

The static card metadata (`card_metadata.json`) is an external read-only
reference table; the classifier is parameterized by it through `Config`.
-/

/-- Per-card metadata attributes the classifier reads.  An unknown card
maps to the empty record (`elixir := none`, all flags `false`), matching
`_get_card_meta`'s `{}` default. -/
structure CardMeta where
  elixir : Option ℚ
  is_bait_piece : Bool
  is_bridge_spam_piece : Bool
  is_big_tank : Bool
deriving DecidableEq

/-- The record returned by `_precompute_deck_values`. -/
structure DeckValues where
  avg_elixir : ℚ
  four_card_cycle_cost : ℚ
  has_xbow : Bool
  has_mortar : Bool
  bait_pieces : Nat
  bridge_spam_count : Nat
  big_tank_count : Nat
deriving DecidableEq

def ARCHETYPE_SIEGE : String := "Siege"
def ARCHETYPE_BAIT : String := "Bait"
def ARCHETYPE_CYCLE : String := "Cycle"
def ARCHETYPE_BRIDGE_SPAM : String := "Bridge Spam"
def ARCHETYPE_BEATDOWN : String := "Beatdown"
def ARCHETYPE_HYBRID : String := "Hybrid"

/-- External collaborators of the core: card metadata by name (for the
classifier), card name by id (for extraction), the manual override table,
the fetched player ranking and the battle-log source. -/
structure Config where
  metaByName : String → CardMeta
  cardNameFromId : Int → Option String
  overrides : String → Option String
  rawPlayerTags : List (Option String)
  battlelogOf : String → List RawBattle

/-- `_precompute_deck_values` (deck_type.py lines 38-82). -/
def _precompute_deck_values (cfg : Config) (cards : List String) : DeckValues :=
  let metas := cards.map cfg.metaByName
  let elixirs : List ℚ := metas.filterMap fun m => m.elixir
  let avg_elixir : ℚ := if elixirs.length = 0 then 3 else elixirs.sum / 8
  let four_cycle : ℚ :=
    if elixirs.length = 0 then 12
    else ((List.insertionSort (· ≤ ·) elixirs).take 4).sum
  { avg_elixir := avg_elixir
    four_card_cycle_cost := four_cycle
    has_xbow := cards.contains "X-Bow"
    has_mortar := cards.contains "Mortar"
    bait_pieces := metas.countP fun m => m.is_bait_piece
    bridge_spam_count := metas.countP fun m => m.is_bridge_spam_piece
    big_tank_count := metas.countP fun m => m.is_big_tank }

/-- `classify_deck` (deck_type.py lines 85-152): the ordered rule cascade. -/
def classify_deck (cfg : Config) (cards : List String) : String :=
  if cards = [] then ARCHETYPE_HYBRID
  else
    let v := _precompute_deck_values cfg cards
    if v.has_xbow then ARCHETYPE_SIEGE
    else if v.has_mortar then ARCHETYPE_SIEGE
    else if v.bait_pieces ≥ 3 then ARCHETYPE_BAIT
    else if v.four_card_cycle_cost ≤ 9 then ARCHETYPE_CYCLE
    else if v.bridge_spam_count ≥ 2 then ARCHETYPE_BRIDGE_SPAM
    else if v.big_tank_count ≥ 1 ∧ v.avg_elixir ≥ 7 / 2 then ARCHETYPE_BEATDOWN
    else ARCHETYPE_HYBRID

/-! ## `scripts/etl_snapshot_top20.py`: helpers -/

/-- `_normalize_tag` (etl lines 32-37). -/
def _normalize_tag (tag : String) : String :=
  let t := pyUpper (pyStrip tag)
  if t ≠ "" ∧ t.data.head? ≠ some '#' then "#" ++ t else t

/-- `card_variant_from_evolution_level` (etl lines 39-55). -/
def card_variant_from_evolution_level (evolution_level : Option Int) : String :=
  let lvl := evolution_level.getD 0
  if lvl = 1 then "evo" else if lvl = 2 then "hero" else "normal"

/-- The `CardObs` dataclass. -/
structure CardObs where
  card_id : Int
  card_name : String
  card_variant : String
  slot : Nat
deriving DecidableEq

/-- The per-card loop body of `_extract_8_cards`: build observations for
the (at most 8) raw cards, failing if any card identifier is absent. -/
def buildObs (cfg : Config) : Nat → List RawCard → Option (List CardObs)
  | _, [] => some []
  | idx, c :: rest =>
    (c.id).bind fun cid =>
      let nm0 := pyStrip ((c.name).getD "")
      let nm := if nm0 = "" then (cfg.cardNameFromId cid).getD "" else nm0
      let variant := card_variant_from_evolution_level c.evolutionLevel
      (buildObs cfg (idx + 1) rest).map fun out => ⟨cid, nm, variant, idx⟩ :: out

/-- `_extract_8_cards` (etl lines 66-94). -/
def _extract_8_cards (cfg : Config) (participant : RawParticipant) :
    Option (List CardObs) :=
  let cards := (participant.cards).getD []
  if cards.length < 8 then none
  else
    match buildObs cfg 1 (cards.take 8) with
    | none => none
    | some out =>
      if ((out.map fun x => (x.card_id, x.card_variant)).dedup).length = 8 then some out
      else none

/-- `_participant_is_win_ranked_1v1` (etl lines 97-123). -/
def _participant_is_win_ranked_1v1 (battle : RawBattle) (participant_tag : String) :
    Bool :=
  let ptag := _normalize_tag participant_tag
  match (battle.team).getD [], (battle.opponent).getD [] with
  | [t0], [o0] =>
    let team_tag := _normalize_tag ((t0.tag).getD "")
    let opp_tag := _normalize_tag ((o0.tag).getD "")
    let team_crowns := (t0.crowns).getD 0
    let opp_crowns := (o0.crowns).getD 0
    if ptag = team_tag then decide (team_crowns > opp_crowns)
    else if ptag = opp_tag then decide (opp_crowns > team_crowns)
    else false
  | _, _ => false

/-! ## `scripts/etl_snapshot_top20.py`: scan state and aggregation

The `defaultdict` counter maps and the dimension dicts become association
lists (one entry per key, insertion order), with `bump` as the
`+= use / += win` accumulation and `dictGet`/`dictSet` as dict access.
-/

/-- One `{"uses": ..., "wins": ...}` counter. -/
structure Counter where
  uses : Nat
  wins : Nat
deriving DecidableEq

/-- Dict lookup on an association list. -/
def dictGet [DecidableEq κ] : List (κ × α) → κ → Option α
  | [], _ => none
  | e :: rest, k => if e.1 = k then some e.2 else dictGet rest k

/-- Dict assignment (overwrite if present, append if absent). -/
def dictSet [DecidableEq κ] : List (κ × α) → κ → α → List (κ × α)
  | [], k, v => [(k, v)]
  | e :: rest, k, v => if e.1 = k then (k, v) :: rest else e :: dictSet rest k v

/-- `m[k]["uses"] += du; m[k]["wins"] += dw` on a defaultdict of counters. -/
def bump [DecidableEq κ] : List (κ × Counter) → κ → Nat → Nat → List (κ × Counter)
  | [], k, du, dw => [(k, ⟨du, dw⟩)]
  | e :: rest, k, du, dw =>
    if e.1 = k then (e.1, ⟨e.2.uses + du, e.2.wins + dw⟩) :: rest
    else e :: bump rest k du dw

/-- Counter read with the defaultdict zero default. -/
def getC [DecidableEq κ] (m : List (κ × Counter)) (k : κ) : Counter :=
  (dictGet m k).getD ⟨0, 0⟩

/-- First-order membership test on a list of strings (Python `in` on the
seen-hash set and the top-tags set). -/
def memStr : List String → String → Bool
  | [], _ => false
  | t :: rest, s => if t = s then true else memStr rest s

/-- The in-memory scan state of `main` (etl lines 199-215). -/
structure ScanState where
  seen : List String
  dedupedMatches : Nat
  cardsDim : List (Int × String)
  deckHashToType : List (String × String)
  deckHashToCards : List (String × List CardObs)
  playerDecks : List ((String × String) × Counter)
  metaDeckTypes : List (String × Counter)
  metaTypeDeckIds : List ((String × String) × Counter)
  metaTypeCards : List ((String × Int × String) × Counter)

/-- The empty scan state. -/
def initState : ScanState :=
  ⟨[], 0, [], [], [], [], [], [], []⟩

/-- Python `a or b` for an optional string `a` (etl line 263:
`deck_type_overrides.get(dh) or classify_deck(...)`). -/
def pyOrS : Option String → String → String
  | some s, b => if s = "" then b else s
  | none, b => b

/-- The normalized nonempty tags of the fetched top players
(etl lines 183-197; `top_tags` contains exactly these). -/
def topPlayers (cfg : Config) : List String :=
  ((cfg.rawPlayerTags).map fun t => _normalize_tag (t.getD "")).filter fun t => t ≠ ""

/-- The classifier input built at etl line 262:
`[c.card_name for c in card_obs if c.card_name]` — only the cards whose
display name is nonempty contribute. -/
def names_for_classifier (card_obs : List CardObs) : List String :=
  (card_obs.filter fun c => c.card_name ≠ "").map fun c => c.card_name

/-- The deck hash a participant's observations produce (etl lines 257-259). -/
def deckHashOf (card_obs : List CardObs) : String :=
  deck_hash_from_signature
    (canonical_deck_signature (card_obs.map fun c => (toString c.card_id, c.card_variant)))

/-- The per-participant body of the scan loop (etl lines 244-291). -/
def processParticipant (cfg : Config) (b : RawBattle) (part : RawParticipant)
    (st : ScanState) : ScanState :=
  let tag := _normalize_tag ((part.tag).getD "")
  if tag = "" then st
  else
    match _extract_8_cards cfg part with
    | none => st
    | some card_obs =>
      let dh := deckHashOf card_obs
      let dtype := pyOrS (cfg.overrides dh) (classify_deck cfg (names_for_classifier card_obs))
      let won := _participant_is_win_ranked_1v1 b tag
      let dw : Nat := if won then 1 else 0
      let deckAbsent := dictGet st.deckHashToType dh = none
      { st with
        deckHashToType :=
          if deckAbsent then st.deckHashToType ++ [(dh, dtype)] else st.deckHashToType
        deckHashToCards :=
          if deckAbsent then st.deckHashToCards ++ [(dh, card_obs)] else st.deckHashToCards
        cardsDim :=
          card_obs.foldl
            (fun m c => if c.card_name ≠ "" then dictSet m c.card_id c.card_name else m)
            st.cardsDim
        metaDeckTypes := bump st.metaDeckTypes dtype 1 dw
        metaTypeDeckIds := bump st.metaTypeDeckIds (dtype, dh) 1 dw
        metaTypeCards :=
          card_obs.foldl (fun m c => bump m (dtype, c.card_id, c.card_variant) 1 dw)
            st.metaTypeCards
        playerDecks :=
          if memStr (topPlayers cfg) tag then bump st.playerDecks (tag, dh) 1 dw
          else st.playerDecks }

/-- The per-battle body of the scan loop (etl lines 226-291): ranked
filter, dedup gate on the in-memory seen set, then both participants. -/
def processBattle (cfg : Config) (st : ScanState) (b : RawBattle) : ScanState :=
  if ¬ is_ranked_1v1_battle b then st
  else
    let mh := match_hash b
    if memStr st.seen mh then st
    else
      let st1 :=
        { st with seen := mh :: st.seen, dedupedMatches := st.dedupedMatches + 1 }
      match (b.team).getD [], (b.opponent).getD [] with
      | [t0], [o0] => processParticipant cfg b o0 (processParticipant cfg b t0 st1)
      | _, _ => st1

/-- The whole scan phase (etl lines 218-291): every top player's battle
log folded through `processBattle`. -/
def scanAll (cfg : Config) : ScanState :=
  (topPlayers cfg).foldl
    (fun st ptag => (cfg.battlelogOf ptag).foldl (processBattle cfg) st) initState

/-- The resolved archetype of a deck hash in the derivation pass
(etl line 296: `deck_hash_to_type.get(dh, "Hybrid")`). -/
def resolvedType (st : ScanState) (dh : String) : String :=
  (dictGet st.deckHashToType dh).getD "Hybrid"

/-- The second pass deriving `player_type_cards` from `player_decks`
(etl lines 293-301): each (player, deck) counter is fanned out to all of
that deck's card entries under the deck's resolved archetype. -/
def derivePlayerTypeCards (st : ScanState) :
    List ((String × String × Int × String) × Counter) :=
  st.playerDecks.foldl
    (fun acc e =>
      let dtype := resolvedType st e.1.2
      ((dictGet st.deckHashToCards e.1.2).getD []).foldl
        (fun acc2 c => bump acc2 (e.1.1, dtype, c.card_id, c.card_variant)
          e.2.uses e.2.wins)
        acc)
    []

/-! ## Measures and invariant predicates used to state the claims -/

/-- `wins ≤ uses` for one counter. -/
def counterOK (c : Counter) : Prop :=
  c.wins ≤ c.uses

/-- `wins ≤ uses` for every entry of a counter map. -/
def mapOK {κ : Type} (m : List (κ × Counter)) : Prop :=
  ∀ e ∈ m, counterOK e.2

/-- `wins ≤ uses` across all four counter maps filled during the scan. -/
def stateOK (st : ScanState) : Prop :=
  mapOK st.playerDecks ∧ mapOK st.metaDeckTypes ∧
    mapOK st.metaTypeDeckIds ∧ mapOK st.metaTypeCards

/-- Total of a `Counter` projection over a player's `player_type_cards`
entries for one archetype (summing over all card keys). -/
def sumPTC (sel : Counter → Nat) (p t : String) :
    List ((String × String × Int × String) × Counter) → Nat
  | [] => 0
  | e :: rest =>
    (if e.1.1 = p ∧ e.1.2.1 = t then sel e.2 else 0) + sumPTC sel p t rest

/-- Total of a `Counter` projection over `player_decks` entries of one
player whose deck resolves to one archetype. -/
def sumPDAux (sel : Counter → Nat) (st : ScanState) (p t : String) :
    List ((String × String) × Counter) → Nat
  | [] => 0
  | e :: rest =>
    (if e.1.1 = p ∧ resolvedType st e.1.2 = t then sel e.2 else 0) +
      sumPDAux sel st p t rest

/-- Total of a `Counter` projection over a player's `player_decks`
entries whose deck resolves to one archetype. -/
def sumPD (sel : Counter → Nat) (st : ScanState) (p t : String) : Nat :=
  sumPDAux sel st p t st.playerDecks

/-- Per-entry contribution of the fan-out pass: each `(player, deck)`
counter contributes its totals once per card of the deck. -/
def fanContrib (sel : Counter → Nat) (st : ScanState) (p t : String) :
    List ((String × String) × Counter) → Nat
  | [] => 0
  | e :: rest =>
    (if e.1.1 = p ∧ resolvedType st e.1.2 = t then
      ((dictGet st.deckHashToCards e.1.2).getD []).length * sel e.2
    else 0) + fanContrib sel st p t rest

/-! ## Concrete scenario material (counterexamples and witnesses) -/

/-- Structural invariant of the scan state backing the fan-out pass:
every stored deck has exactly 8 cards, every typed deck hash has a card
list, and every `player_decks` key's deck hash has a card list. -/
def lenInv (st : ScanState) : Prop :=
  (∀ e ∈ st.deckHashToCards, e.2.length = 8) ∧
    (∀ dh, dictGet st.deckHashToType dh ≠ none →
      dictGet st.deckHashToCards dh ≠ none) ∧
    (∀ e ∈ st.playerDecks, dictGet st.deckHashToCards e.1.2 ≠ none)

/-- Metadata of a card absent from the reference table (`{}`). -/
def unknownMeta : CardMeta :=
  ⟨none, false, false, false⟩

/-- A metadata table that knows no card. -/
def defaultMetaFn : String → CardMeta :=
  fun _ => unknownMeta

/-- Eight raw cards with ids `start..start+7` and names `C<id>`. -/
def mkCards8 (start : Int) : List RawCard :=
  (List.range 8).map fun i => ⟨some (start + i), some ("C" ++ toString (start + (i : Int))), none⟩

/-- A configuration with empty collaborators. -/
def noLogCfg : Config :=
  ⟨defaultMetaFn, fun _ => none, fun _ => none, [], fun _ => []⟩

/-- Participant `#AAA` with 1 crown and a full deck. -/
def partA : RawParticipant :=
  ⟨some "#AAA", some 1, some (mkCards8 1)⟩

/-- Participant `#BBB` with 0 crowns and the same full deck. -/
def partB : RawParticipant :=
  ⟨some "#BBB", some 0, some (mkCards8 1)⟩

/-- One ranked 1v1 match as recorded in `#AAA`'s battle log. -/
def battleViewA : RawBattle :=
  ⟨some "T1", some 72000464, none, none, some [partA], some [partB]⟩

/-- The same match as recorded in `#BBB`'s battle log: the `team` and
`opponent` sides are swapped, tag and crown content is identical. -/
def battleViewB : RawBattle :=
  ⟨some "T1", some 72000464, none, none, some [partB], some [partA]⟩

/-- Scenario: the same match is discovered once via each participant's log. -/
def swapCfg : Config :=
  ⟨defaultMetaFn, fun _ => none, fun _ => none, [some "#AAA", some "#BBB"],
   fun t =>
     if t = "#AAA" then [battleViewA]
     else if t = "#BBB" then [battleViewB] else []⟩

/-- Scenario: a single player's log with a single match. -/
def oneCfg : Config :=
  ⟨defaultMetaFn, fun _ => none, fun _ => none, [some "#AAA"],
   fun t => if t = "#AAA" then [battleViewA] else []⟩

/-- Scenario: the identical record occurs twice in one log. -/
def dupCfg : Config :=
  ⟨defaultMetaFn, fun _ => none, fun _ => none, [some "#AAA", some "#BBB"],
   fun t => if t = "#AAA" then [battleViewA, battleViewA] else []⟩

/-- A malformed-but-processed battle whose two sides carry the same tag;
the team side has 0 crowns, the opponent side 1. -/
def sameTagTeam : RawParticipant :=
  ⟨some "#AAA", some 0, some (mkCards8 1)⟩

def sameTagOpp : RawParticipant :=
  ⟨some "#AAA", some 1, some (mkCards8 1)⟩

def sameTagBattle : RawBattle :=
  ⟨some "T9", some 72000464, none, none, some [sameTagTeam], some [sameTagOpp]⟩

/-- The card observations `_extract_8_cards` produces for `mkCards8 1`. -/
def obs8 : List CardObs :=
  [⟨1, "C1", "normal", 1⟩, ⟨2, "C2", "normal", 2⟩, ⟨3, "C3", "normal", 3⟩,
   ⟨4, "C4", "normal", 4⟩, ⟨5, "C5", "normal", 5⟩, ⟨6, "C6", "normal", 6⟩,
   ⟨7, "C7", "normal", 7⟩, ⟨8, "C8", "normal", 8⟩]

/-- A participant whose eight cards all lack a resolvable display name. -/
def noNamesPart : RawParticipant :=
  ⟨some "#AAA", some 1, some ((List.range 8).map fun i => ⟨some ((i : Int) + 1), none, none⟩)⟩

/-- Two permutations of the same eight deck keys. -/
def keysA : List (String × String) :=
  [("8", "normal"), ("3", "evo"), ("5", "normal"), ("1", "normal"),
   ("7", "hero"), ("2", "normal"), ("6", "normal"), ("4", "normal")]

def keysB : List (String × String) :=
  [("1", "normal"), ("2", "normal"), ("3", "evo"), ("4", "normal"),
   ("5", "normal"), ("6", "normal"), ("7", "hero"), ("8", "normal")]

/-- Metadata marking `B1`, `B2`, `B3` as bait pieces, everything cheap. -/
def baitMetaFn : String → CardMeta :=
  fun n =>
    if n = "B1" ∨ n = "B2" ∨ n = "B3" then ⟨some 1, true, false, false⟩
    else ⟨some 1, false, false, false⟩

def baitCfg : Config :=
  ⟨baitMetaFn, fun _ => none, fun _ => none, [], fun _ => []⟩

def baitDeck : List String :=
  ["B1", "B2", "B3", "D4", "D5", "D6", "D7", "D8"]

def xbowDeck : List String :=
  ["X-Bow", "D2", "D3", "D4", "D5", "D6", "D7", "D8"]

/-! ## Helper lemmas -/

theorem insertionSort_eq_of_perm {l1 l2 : List (String × String)} (h : l1.Perm l2) :
    List.insertionSort pairLe l1 = List.insertionSort pairLe l2 :=
  List.eq_of_perm_of_sorted
    ((List.perm_insertionSort _ _).trans (h.trans (List.perm_insertionSort _ _).symm))
    (List.sorted_insertionSort _ _) (List.sorted_insertionSort _ _)

theorem precompute_has_xbow (cfg : Config) (cards : List String) :
    (_precompute_deck_values cfg cards).has_xbow = cards.contains "X-Bow" :=
  rfl

theorem precompute_has_mortar (cfg : Config) (cards : List String) :
    (_precompute_deck_values cfg cards).has_mortar = cards.contains "Mortar" :=
  rfl

theorem precompute_bait (cfg : Config) (cards : List String) :
    (_precompute_deck_values cfg cards).bait_pieces =
      (cards.map cfg.metaByName).countP (fun m => m.is_bait_piece) :=
  rfl

theorem precompute_avg (cfg : Config) (cards : List String) :
    (_precompute_deck_values cfg cards).avg_elixir =
      (if ((cards.map cfg.metaByName).filterMap fun m => m.elixir).length = 0 then 3
       else ((cards.map cfg.metaByName).filterMap fun m => m.elixir).sum / 8) :=
  rfl

theorem precompute_four (cfg : Config) (cards : List String) :
    (_precompute_deck_values cfg cards).four_card_cycle_cost =
      (if ((cards.map cfg.metaByName).filterMap fun m => m.elixir).length = 0 then 12
       else ((List.insertionSort (· ≤ ·)
         ((cards.map cfg.metaByName).filterMap fun m => m.elixir)).take 4).sum) :=
  rfl

/-! ## Claim theorems -/

/-- C2: for every sequence of 8 `(card_id, variant)` pairs and every
permutation of it, `canonical_deck_signature` yields the same signature
string and `deck_hash_from_signature` therefore yields the same deck
hash; slot order plays no role in deck identity. -/
theorem canonical_signature_perm_invariant (l1 l2 : List (String × String))
    (_hlen : l1.length = 8) (hp : l1.Perm l2) :
    canonical_deck_signature l1 = canonical_deck_signature l2 ∧
      deck_hash_from_signature (canonical_deck_signature l1) =
        deck_hash_from_signature (canonical_deck_signature l2) := by
  have hsig : canonical_deck_signature l1 = canonical_deck_signature l2 := by
    simp only [canonical_deck_signature]
    rw [insertionSort_eq_of_perm (hp.map _)]
  exact ⟨hsig, by rw [hsig]⟩

/-- Witness for C2 at two concrete permutations of eight pairs. -/
theorem canonical_signature_perm_invariant_witness :
    canonical_deck_signature keysA = canonical_deck_signature keysB ∧
      deck_hash_from_signature (canonical_deck_signature keysA) =
        deck_hash_from_signature (canonical_deck_signature keysB) :=
  canonical_signature_perm_invariant keysA keysB (by decide) (by decide)

/-- C3: `classify_deck` is an ordered first-match-wins cascade: any card
list containing the X-Bow card classifies as Siege regardless of its
elixir profile, and any card list with at least 3 bait-flagged cards and
no siege card classifies as Bait even when its four-card cycle cost is at
most 9. -/
theorem classify_deck_cascade :
    (∀ (cfg : Config) (cards : List String), "X-Bow" ∈ cards →
      classify_deck cfg cards = ARCHETYPE_SIEGE) ∧
    (∀ (cfg : Config) (cards : List String), "X-Bow" ∉ cards → "Mortar" ∉ cards →
      3 ≤ (_precompute_deck_values cfg cards).bait_pieces →
      classify_deck cfg cards = ARCHETYPE_BAIT) := by
  constructor
  · intro cfg cards hmem
    have hne : cards ≠ [] := by
      intro h
      rw [h] at hmem
      exact absurd hmem (List.not_mem_nil _)
    have hx : (_precompute_deck_values cfg cards).has_xbow = true := by
      rw [precompute_has_xbow]
      exact List.elem_eq_true_of_mem hmem
    simp only [classify_deck, if_neg hne, hx, if_true]
  · intro cfg cards hxbow hmortar hbait
    have hlen : 3 ≤ cards.length := by
      have h1 := List.countP_le_length (p := fun m => m.is_bait_piece)
        (l := cards.map cfg.metaByName)
      rw [precompute_bait] at hbait
      have := le_trans hbait h1
      simpa using this
    have hne : cards ≠ [] := by
      intro h
      rw [h] at hlen
      simp at hlen
    have hx : (_precompute_deck_values cfg cards).has_xbow = false := by
      rw [precompute_has_xbow]
      by_contra h
      exact hxbow (List.mem_of_elem_eq_true (by simpa using h))
    have hm : (_precompute_deck_values cfg cards).has_mortar = false := by
      rw [precompute_has_mortar]
      by_contra h
      exact hmortar (List.mem_of_elem_eq_true (by simpa using h))
    simp only [classify_deck, if_neg hne, hx, hm, Bool.false_eq_true, if_false,
      if_pos hbait]

/-- Witness for C3: a concrete X-Bow deck classifies Siege, and a concrete
deck with three bait pieces, no siege card and four-card cycle cost ≤ 9
classifies Bait. -/
theorem classify_deck_cascade_witness :
    classify_deck noLogCfg xbowDeck = ARCHETYPE_SIEGE ∧
      ((_precompute_deck_values baitCfg baitDeck).four_card_cycle_cost ≤ 9 ∧
        classify_deck baitCfg baitDeck = ARCHETYPE_BAIT) := by
  refine ⟨classify_deck_cascade.1 noLogCfg xbowDeck (by decide), ?_,
    classify_deck_cascade.2 baitCfg baitDeck (by decide) (by decide) (by decide)⟩
  have hl : ((baitDeck.map baitCfg.metaByName).filterMap fun m => m.elixir) =
      ([1, 1, 1, 1, 1, 1, 1, 1] : List ℚ) := by decide
  have hs : List.insertionSort (· ≤ ·) ([1, 1, 1, 1, 1, 1, 1, 1] : List ℚ) =
      ([1, 1, 1, 1, 1, 1, 1, 1] : List ℚ) := by decide
  rw [precompute_four, hl, if_neg (by decide), hs]
  norm_num

/-- C9: when a non-empty card list contains no card with a known elixir
cost, the derived statistics default to average elixir 3.0 and four-card
cycle cost 12.0; consequently, since 12.0 > 9, such an all-unknown deck
never classifies as Cycle through the cycle-cost rule. -/
theorem classify_unknown_elixir_defaults (cfg : Config) (cards : List String)
    (hne : cards ≠ []) (hall : ∀ n ∈ cards, (cfg.metaByName n).elixir = none) :
    (_precompute_deck_values cfg cards).avg_elixir = 3 ∧
      (_precompute_deck_values cfg cards).four_card_cycle_cost = 12 ∧
      classify_deck cfg cards ≠ ARCHETYPE_CYCLE := by
  have helix : ((cards.map cfg.metaByName).filterMap fun m => m.elixir) = [] := by
    rw [List.filterMap_eq_nil_iff]
    intro m hm
    rcases List.mem_map.mp hm with ⟨n, hn, rfl⟩
    exact hall n hn
  have havg : (_precompute_deck_values cfg cards).avg_elixir = 3 := by
    rw [precompute_avg, helix]
    simp
  have hfour : (_precompute_deck_values cfg cards).four_card_cycle_cost = 12 := by
    rw [precompute_four, helix]
    simp
  refine ⟨havg, hfour, ?_⟩
  have hnotle : ¬ ((_precompute_deck_values cfg cards).four_card_cycle_cost ≤ 9) := by
    rw [hfour]
    norm_num
  simp only [classify_deck, if_neg hne]
  split_ifs <;> decide

/-- Witness for C9 at a concrete single-card all-unknown list. -/
theorem classify_unknown_elixir_defaults_witness :
    (_precompute_deck_values noLogCfg ["A"]).avg_elixir = 3 ∧
      (_precompute_deck_values noLogCfg ["A"]).four_card_cycle_cost = 12 ∧
      classify_deck noLogCfg ["A"] ≠ ARCHETYPE_CYCLE :=
  classify_unknown_elixir_defaults noLogCfg ["A"] (by decide)
    (by intro n hn; rcases hn with h | h <;> rfl)

/-- C8 counterexample: a participant record all eight of whose cards lack
a resolvable display name extracts successfully, yet the list handed to
the classifier (etl line 262) has 0 entries, not 8 — unresolved cards are
omitted rather than contributing an empty string. -/
theorem classifier_input_counterexample :
    ((_extract_8_cards noLogCfg noNamesPart).map
      fun obs => (names_for_classifier obs).length) = some 0 ∧ (0 : Nat) ≠ 8 :=
  ⟨by decide, by decide⟩

/-- C8 (amended): for every valid extracted deck, the classifier is
invoked with the display names of exactly those cards whose name resolved
to a nonempty string, in slot order; cards with an unresolved (empty)
name are omitted, so the classifier receives all 8 names only when every
name resolved. -/
theorem classifier_input_spec (obs : List CardObs) :
    names_for_classifier obs =
      (obs.map fun c => c.card_name).filter (fun n => n ≠ "") ∧
      ((∀ c ∈ obs, c.card_name ≠ "") →
        names_for_classifier obs = obs.map fun c => c.card_name) := by
  constructor
  · simp only [names_for_classifier, List.filter_map]
    rfl
  · intro hall
    simp only [names_for_classifier]
    rw [List.filter_eq_self.mpr]
    intro c hc
    simpa using hall c hc

/-- Witness for C8's amended statement at a fully named deck. -/
theorem classifier_input_spec_witness :
    names_for_classifier obs8 = obs8.map fun c => c.card_name :=
  (classifier_input_spec obs8).2 (by decide)

theorem buildObs_eq_none_iff (cfg : Config) (idx : Nat) (l : List RawCard) :
    buildObs cfg idx l = none ↔ ∃ c ∈ l, c.id = none := by
  induction l generalizing idx with
  | nil => simp [buildObs]
  | cons c rest ih =>
    cases hid : c.id with
    | none =>
      exact iff_of_true (by simp [buildObs, hid]) ⟨c, List.mem_cons_self c rest, hid⟩
    | some cid =>
      simp only [buildObs, hid, Option.some_bind]
      cases hb : buildObs cfg (idx + 1) rest with
      | none =>
        refine iff_of_true (by simp [hb]) ?_
        rcases (ih (idx + 1)).mp hb with ⟨c', hc', hid'⟩
        exact ⟨c', List.mem_cons_of_mem _ hc', hid'⟩
      | some out =>
        refine iff_of_false (by simp [hb]) ?_
        rintro ⟨c', hc', hid'⟩
        rcases List.mem_cons.mp hc' with rfl | hmem
        · rw [hid] at hid'
          exact Option.noConfusion hid'
        · have hn : buildObs cfg (idx + 1) rest = none :=
            (ih (idx + 1)).mpr ⟨c', hmem, hid'⟩
          rw [hb] at hn
          exact Option.noConfusion hn

theorem buildObs_some (cfg : Config) (idx : Nat) (l : List RawCard)
    (out : List CardObs) (h : buildObs cfg idx l = some out) :
    out.length = l.length ∧
      (out.map fun o => (o.card_id, o.card_variant)) =
        l.map fun c =>
          ((c.id).getD 0, card_variant_from_evolution_level c.evolutionLevel) := by
  induction l generalizing idx out with
  | nil =>
    simp only [buildObs, Option.some_inj] at h
    subst h
    simp
  | cons c rest ih =>
    cases hid : c.id with
    | none => simp [buildObs, hid] at h
    | some cid =>
      simp only [buildObs, hid, Option.some_bind] at h
      cases hb : buildObs cfg (idx + 1) rest with
      | none => rw [hb] at h; simp at h
      | some out0 =>
        rw [hb] at h
        simp at h
        subst h
        obtain ⟨hlen, hpairs⟩ := ih (idx + 1) out0 hb
        constructor
        · simpa using hlen
        · simp only [List.map_cons, hpairs, hid]
          rfl

/-- C6: card extraction for a participant returns no observation exactly
when the raw card list has fewer than 8 entries, some entry among the
first 8 lacks a card identifier, or the 8 built `(card_id, variant)`
pairs are not all distinct; otherwise it returns exactly 8 observations
whose `(card_id, variant)` pairs have exactly 8 distinct members.  (The
embedding is a pure function of its inputs, matching the source, which
only reads its arguments.) -/
theorem extract_8_cards_spec (cfg : Config) (p : RawParticipant) :
    (_extract_8_cards cfg p = none ↔
      ((p.cards).getD []).length < 8 ∨
        (∃ c ∈ ((p.cards).getD []).take 8, c.id = none) ∨
        ¬ ((((p.cards).getD []).take 8).map fun c =>
            ((c.id).getD 0, card_variant_from_evolution_level c.evolutionLevel)).Nodup) ∧
    (∀ obs, _extract_8_cards cfg p = some obs →
      obs.length = 8 ∧ (obs.map fun o => (o.card_id, o.card_variant)).Nodup) := by
  by_cases hlen : ((p.cards).getD []).length < 8
  · constructor
    · exact iff_of_true (by simp [_extract_8_cards, hlen]) (Or.inl hlen)
    · intro obs h
      simp [_extract_8_cards, hlen] at h
  · have h8 : (((p.cards).getD []).take 8).length = 8 := by
      rw [List.length_take]
      omega
    cases hb : buildObs cfg 1 (((p.cards).getD []).take 8) with
    | none =>
      have hex := (buildObs_eq_none_iff cfg 1 _).mp hb
      constructor
      · exact iff_of_true (by simp [_extract_8_cards, hlen, hb]) (Or.inr (Or.inl hex))
      · intro obs h
        simp [_extract_8_cards, hlen, hb] at h
    | some out =>
      obtain ⟨holen, hopairs⟩ := buildObs_some cfg 1 _ out hb
      rw [h8] at holen
      by_cases hnd : (out.map fun o => (o.card_id, o.card_variant)).Nodup
      · have hdedup : ((out.map fun o => (o.card_id, o.card_variant)).dedup).length = 8 := by
          rw [List.dedup_eq_self.mpr hnd, List.length_map, holen]
        have hsome : _extract_8_cards cfg p = some out := by
          simp [_extract_8_cards, hlen, hb, hdedup]
        constructor
        · refine iff_of_false (by simp [hsome]) ?_
          rintro (h1 | h2 | h3)
          · exact hlen h1
          · have hn := (buildObs_eq_none_iff cfg 1 _).mpr h2
            rw [hb] at hn
            exact Option.noConfusion hn
          · rw [← hopairs] at h3
            exact h3 hnd
        · intro obs h
          rw [hsome] at h
          cases h
          exact ⟨holen, hnd⟩
      · have hdedup : ((out.map fun o => (o.card_id, o.card_variant)).dedup).length ≠ 8 := by
          intro hdl
          have hsub := List.dedup_sublist (out.map fun o => (o.card_id, o.card_variant))
          have heq := hsub.eq_of_length (by rw [hdl, List.length_map, holen])
          exact hnd (heq ▸ List.nodup_dedup _)
        have hnone : _extract_8_cards cfg p = none := by
          simp [_extract_8_cards, hlen, hb, hdedup]
        constructor
        · refine iff_of_true hnone (Or.inr (Or.inr ?_))
          rw [← hopairs]
          exact hnd
        · intro obs h
          rw [hnone] at h
          exact Option.noConfusion h

/-- C1 (code bug): the dedup fingerprint is NOT side-invariant.
`battleViewA` and `battleViewB` are the same ranked 1v1 match as seen
from the two participants' battle logs — team and opponent are swapped
and per-side tag/crown content is identical — yet `match_hash`
serializes the sides under the distinct JSON keys `"team"` and
`"opponent"`, so the blobs, and hence the SHA-1 hashes, differ.  This
contradicts the function's own docstring ("Dedup hash stable across both
players' battlelogs"). -/
theorem match_hash_not_side_invariant :
    sidePayload battleViewA.team = sidePayload battleViewB.opponent ∧
      sidePayload battleViewA.opponent = sidePayload battleViewB.team ∧
      is_ranked_1v1_battle battleViewA = true ∧
      is_ranked_1v1_battle battleViewB = true ∧
      matchBlob battleViewA ≠ matchBlob battleViewB ∧
      match_hash battleViewA ≠ match_hash battleViewB :=
  ⟨by decide, by decide, by decide, by decide, by decide, by decide⟩

/-- C7 (code bug): the in-memory seen-hash set deduplicates only
identically-presented records.  When the same match is discovered once via each
participant's log (`swapCfg`), the two views hash differently, so the
match is processed twice: 2 deduped matches and Hybrid counters (4, 2)
instead of the (2, 1) a single processing would produce.  The literal
duplicate record (`dupCfg`) IS skipped: 1 deduped match, counters (2, 1). -/
theorem dedup_per_run_counterexample :
    ((scanAll swapCfg).dedupedMatches,
      getC (scanAll swapCfg).metaDeckTypes "Hybrid") = (2, ⟨4, 2⟩) ∧
    ((scanAll dupCfg).dedupedMatches,
      getC (scanAll dupCfg).metaDeckTypes "Hybrid") = (1, ⟨2, 1⟩) :=
  ⟨by decide, by decide⟩

/-- C4 counterexample: in `sameTagBattle` both sides carry the normalized
tag `#AAA`; the opponent side has strictly more crowns (1 > 0), so by the
claim its participant pass must add a win — but
`_participant_is_win_ranked_1v1` matches the tag against the team side
first and reports no win for either pass: the Hybrid counter ends at
uses 2, wins 0. -/
theorem win_attribution_counterexample :
    is_ranked_1v1_battle sameTagBattle = true ∧
      _normalize_tag ((sameTagOpp.tag).getD "") ≠ "" ∧
      (_extract_8_cards noLogCfg sameTagOpp).isSome = true ∧
      ((sameTagOpp.crowns).getD 0 > (sameTagTeam.crowns).getD 0) ∧
      getC (processBattle noLogCfg initState sameTagBattle).metaDeckTypes "Hybrid" =
        ⟨2, 0⟩ :=
  ⟨by decide, by decide, by decide, by decide, by decide⟩

theorem char_eq_iff_toNat {a b : Char} : a = b ↔ a.toNat = b.toNat :=
  ⟨fun h => h ▸ rfl, fun h => Char.ext (UInt32.toNat.inj h)⟩

theorem toNat_ofNat_valid (n : Nat) (h1 : n < 55296) : (Char.ofNat n).toNat = n := by
  have hv : n.isValidChar := Or.inl h1
  simp [Char.ofNat, hv, Char.ofNatAux, Char.toNat, UInt32.toNat]

theorem isWhitespace_iff (c : Char) :
    c.isWhitespace = true ↔
      c.toNat = 32 ∨ c.toNat = 9 ∨ c.toNat = 13 ∨ c.toNat = 10 := by
  show (c = ' ' || c = '\t' || c = '\r' || c = '\n') = true ↔ _
  simp only [Bool.or_eq_true, decide_eq_true_eq, char_eq_iff_toNat]
  have h1 : (' ' : Char).toNat = 32 := rfl
  have h2 : ('\t' : Char).toNat = 9 := rfl
  have h3 : ('\r' : Char).toNat = 13 := rfl
  have h4 : ('\n' : Char).toNat = 10 := rfl
  rw [h1, h2, h3, h4]
  tauto

theorem upChar_toNat (c : Char) :
    (upChar c).toNat =
      if 97 ≤ c.toNat ∧ c.toNat ≤ 122 then c.toNat - 32 else c.toNat := by
  unfold upChar
  split_ifs with h
  · exact toNat_ofNat_valid _ (by omega)
  · rfl

theorem upChar_fix (c : Char) (h : ¬(97 ≤ c.toNat ∧ c.toNat ≤ 122)) : upChar c = c := by
  unfold upChar
  rw [if_neg h]

theorem upChar_ws (c : Char) : (upChar c).isWhitespace = c.isWhitespace := by
  by_cases h : 97 ≤ c.toNat ∧ c.toNat ≤ 122
  · have h1 : (upChar c).toNat = c.toNat - 32 := by rw [upChar_toNat, if_pos h]
    have hw1 : (upChar c).isWhitespace = false := by
      rw [← Bool.not_eq_true, isWhitespace_iff, h1]
      omega
    have hw2 : c.isWhitespace = false := by
      rw [← Bool.not_eq_true, isWhitespace_iff]
      omega
    rw [hw1, hw2]
  · rw [upChar_fix c h]

theorem upChar_upChar (c : Char) : upChar (upChar c) = upChar c := by
  by_cases h : 97 ≤ c.toNat ∧ c.toNat ≤ 122
  · have h1 : (upChar c).toNat = c.toNat - 32 := by rw [upChar_toNat, if_pos h]
    exact upChar_fix _ (by omega)
  · conv_lhs => rw [upChar_fix c h]

theorem upChar_hash_iff (c : Char) : upChar c = '#' ↔ c = '#' := by
  constructor
  · intro h
    by_cases hr : 97 ≤ c.toNat ∧ c.toNat ≤ 122
    · have h1 : (upChar c).toNat = c.toNat - 32 := by rw [upChar_toNat, if_pos hr]
      have h2 := char_eq_iff_toNat.mp h
      have h3 : ('#' : Char).toNat = 35 := rfl
      rw [h1, h3] at h2
      omega
    · rwa [upChar_fix c hr] at h
  · intro h
    rw [h]
    decide

theorem dropWhile_idem (p : Char → Bool) (l : List Char) :
    (l.dropWhile p).dropWhile p = l.dropWhile p := by
  induction l with
  | nil => rfl
  | cons c cs ih =>
    by_cases h : p c
    · simp only [List.dropWhile_cons, h, if_true]
      exact ih
    · simp [List.dropWhile_cons, h]

theorem stripL_map_upChar (l : List Char) :
    stripL (l.map upChar) = (stripL l).map upChar := by
  unfold stripL
  rw [List.dropWhile_map]
  have h : (Char.isWhitespace ∘ upChar) = Char.isWhitespace := funext upChar_ws
  rw [h]

theorem stripR_cons (c : Char) (cs : List Char) :
    stripR (c :: cs) =
      match stripR cs with
      | [] => if c.isWhitespace then [] else [c]
      | r => c :: r :=
  rfl

theorem stripR_map_upChar (l : List Char) :
    stripR (l.map upChar) = (stripR l).map upChar := by
  induction l with
  | nil => rfl
  | cons c cs ih =>
    rw [List.map_cons, stripR_cons, stripR_cons, ih]
    cases h : stripR cs with
    | nil =>
      by_cases hw : c.isWhitespace <;> simp [upChar_ws, hw]
    | cons a as =>
      simp

theorem stripR_idem (l : List Char) : stripR (stripR l) = stripR l := by
  induction l with
  | nil => rfl
  | cons c cs ih =>
    rw [stripR_cons]
    cases h : stripR cs with
    | nil =>
      by_cases hw : c.isWhitespace
      · simp [hw, stripR]
      · simp only [hw, Bool.false_eq_true, if_false]
        show stripR [c] = [c]
        rw [stripR_cons]
        simp [stripR, hw]
    | cons a as =>
      rw [h] at ih
      show stripR (c :: a :: as) = c :: a :: as
      rw [stripR_cons, ih]

theorem stripR_length_le (l : List Char) : (stripR l).length ≤ l.length := by
  induction l with
  | nil => simp [stripR]
  | cons c cs ih =>
    rw [stripR_cons]
    cases h : stripR cs with
    | nil =>
      by_cases hw : c.isWhitespace <;> simp [hw, stripR]
    | cons a as =>
      rw [h] at ih
      show (c :: a :: as).length ≤ cs.length + 1
      simp only [List.length_cons] at ih ⊢
      omega

theorem stripR_sublist (l : List Char) : List.Sublist (stripR l) l := by
  induction l with
  | nil => exact List.Sublist.refl _
  | cons c cs ih =>
    rw [stripR_cons]
    cases h : stripR cs with
    | nil =>
      by_cases hw : c.isWhitespace
      · simp [hw]
      · simp only [hw, Bool.false_eq_true, if_false]
        show List.Sublist [c] (c :: cs)
        exact (List.nil_sublist cs).cons₂ c
    | cons a as =>
      rw [h] at ih
      show List.Sublist (c :: a :: as) (c :: cs)
      exact ih.cons₂ c

theorem strip_fixed_parts (l : List Char) (h : stripR (stripL l) = l) :
    stripL l = l ∧ stripR l = l := by
  have h1 : (stripL l).length ≤ l.length := List.Sublist.length_le (List.dropWhile_sublist _)
  have h2 : (stripR (stripL l)).length ≤ (stripL l).length := stripR_length_le _
  have h3 : (stripR (stripL l)).length = l.length := by rw [h]
  have h4 : (stripL l).length = l.length := by omega
  have h5 : stripL l = l := (List.dropWhile_sublist _).eq_of_length h4
  exact ⟨h5, by rw [h5] at h; exact h⟩

theorem stripL_stripR_fix (l : List Char) (h : stripL l = l) :
    stripL (stripR l) = stripR l := by
  cases l with
  | nil => rfl
  | cons c cs =>
    have hw : c.isWhitespace = false := by
      by_contra hcon
      have hww : c.isWhitespace = true := by
        cases hh : c.isWhitespace
        · exact absurd hh hcon
        · rfl
      have he : stripL (c :: cs) = stripL cs := by
        unfold stripL
        rw [List.dropWhile_cons, if_pos hww]
      rw [he] at h
      have hlen := congrArg List.length h
      rw [List.length_cons] at hlen
      have hle : (stripL cs).length ≤ cs.length :=
        List.Sublist.length_le (List.dropWhile_sublist _)
      omega
    rw [stripR_cons]
    cases hsr : stripR cs with
    | nil =>
      rw [hw]
      simp only [Bool.false_eq_true, if_false]
      show stripL [c] = [c]
      unfold stripL
      rw [List.dropWhile_cons, hw]
      simp
    | cons a as =>
      show stripL (c :: a :: as) = c :: a :: as
      unfold stripL
      rw [List.dropWhile_cons, hw]
      simp

theorem pyStrip_pyUpper_comm (s : String) :
    pyStrip (pyUpper s) = pyUpper (pyStrip s) := by
  show (⟨stripR (stripL (s.data.map upChar))⟩ : String) = ⟨(stripR (stripL s.data)).map upChar⟩
  rw [stripL_map_upChar, stripR_map_upChar]

theorem pyUpper_idem (s : String) : pyUpper (pyUpper s) = pyUpper s := by
  show (⟨(s.data.map upChar).map upChar⟩ : String) = ⟨s.data.map upChar⟩
  rw [List.map_map]
  congr 1
  apply List.map_congr_left
  intro c _
  exact upChar_upChar c

theorem pyStrip_idem (s : String) : pyStrip (pyStrip s) = pyStrip s := by
  show (⟨stripR (stripL (stripR (stripL s.data)))⟩ : String) = ⟨stripR (stripL s.data)⟩
  have h1 : stripL (stripL s.data) = stripL s.data := dropWhile_idem _ _
  have h2 : stripL (stripR (stripL s.data)) = stripR (stripL s.data) :=
    stripL_stripR_fix _ h1
  rw [h2, stripR_idem]

theorem pyStrip_pyUpper_pyStrip_fix (s : String) :
    pyStrip (pyUpper (pyStrip s)) = pyUpper (pyStrip s) := by
  rw [pyStrip_pyUpper_comm, pyStrip_idem]

theorem pyUpper_pyUpper_pyStrip_fix (s : String) :
    pyUpper (pyUpper (pyStrip s)) = pyUpper (pyStrip s) :=
  pyUpper_idem _

theorem string_data_ne_nil {s : String} (h : s ≠ "") : s.data ≠ [] := by
  intro hd
  exact h (String.ext (hd.trans rfl))

theorem pyStrip_data (s : String) : (pyStrip s).data = stripR (stripL s.data) :=
  rfl

theorem pyStrip_hash_cons (t : String) (ht : pyStrip t = t) (hne : t ≠ "") :
    pyStrip ("#" ++ t) = "#" ++ t := by
  have hdata : stripR (stripL t.data) = t.data := congrArg String.data ht
  obtain ⟨hL, hR⟩ := strip_fixed_parts t.data hdata
  apply String.ext
  show stripR (stripL ('#' :: t.data)) = '#' :: t.data
  have hL2 : stripL ('#' :: t.data) = '#' :: t.data := by
    unfold stripL
    rw [List.dropWhile_cons]
    simp [show ('#' : Char).isWhitespace = false from rfl]
  rw [hL2, stripR_cons, hR]
  cases htd : t.data with
  | nil => exact absurd (String.ext (htd.trans rfl)) hne
  | cons a as => rfl

theorem pyUpper_hash_cons (t : String) : pyUpper ("#" ++ t) = "#" ++ pyUpper t := by
  apply String.ext
  show ('#' :: t.data).map upChar = '#' :: t.data.map upChar
  rw [List.map_cons, show upChar '#' = '#' from by decide]

theorem normalize_of_fixed (t : String) (hS : pyStrip t = t) (hU : pyUpper t = t) :
    _normalize_tag t =
      if t ≠ "" ∧ t.data.head? ≠ some '#' then "#" ++ t else t := by
  simp only [_normalize_tag]
  rw [hS, hU]

/-- `_normalize_tag` is idempotent. -/
theorem _normalize_tag_idem (s : String) :
    _normalize_tag (_normalize_tag s) = _normalize_tag s := by
  have hSt : pyStrip (pyUpper (pyStrip s)) = pyUpper (pyStrip s) :=
    pyStrip_pyUpper_pyStrip_fix s
  have hUt : pyUpper (pyUpper (pyStrip s)) = pyUpper (pyStrip s) := pyUpper_idem _
  have hnorm_s : _normalize_tag s =
      if pyUpper (pyStrip s) ≠ "" ∧ (pyUpper (pyStrip s)).data.head? ≠ some '#' then
        "#" ++ pyUpper (pyStrip s)
      else pyUpper (pyStrip s) := rfl
  rw [hnorm_s]
  by_cases hc : pyUpper (pyStrip s) ≠ "" ∧ (pyUpper (pyStrip s)).data.head? ≠ some '#'
  · rw [if_pos hc]
    have h1 : pyStrip ("#" ++ pyUpper (pyStrip s)) = "#" ++ pyUpper (pyStrip s) :=
      pyStrip_hash_cons _ hSt hc.1
    have h2 : pyUpper ("#" ++ pyUpper (pyStrip s)) = "#" ++ pyUpper (pyStrip s) := by
      rw [pyUpper_hash_cons, hUt]
    rw [normalize_of_fixed _ h1 h2, if_neg]
    push_neg
    intro _
    rfl
  · rw [if_neg hc, normalize_of_fixed _ hSt hUt, if_neg hc]

/-- Tags that agree after uppercasing normalize identically. -/
theorem _normalize_tag_congr_upper (s t : String) (h : pyUpper s = pyUpper t) :
    _normalize_tag s = _normalize_tag t := by
  have hst : pyUpper (pyStrip s) = pyUpper (pyStrip t) := by
    rw [← pyStrip_pyUpper_comm, h, pyStrip_pyUpper_comm]
  simp only [_normalize_tag]
  rw [hst]

/-- Adding the leading `#` to a stripped, nonempty, unprefixed tag does
not change its normalization. -/
theorem _normalize_tag_hash (s : String) (hS : pyStrip s = s) (hne : s ≠ "")
    (hhead : s.data.head? ≠ some '#') :
    _normalize_tag ("#" ++ s) = _normalize_tag s := by
  have h1 : pyStrip ("#" ++ s) = "#" ++ s := pyStrip_hash_cons s hS hne
  have hLHS : pyUpper (pyStrip ("#" ++ s)) = "#" ++ pyUpper s := by
    rw [h1, pyUpper_hash_cons]
  have hRHS : pyUpper (pyStrip s) = pyUpper s := by rw [hS]
  simp only [_normalize_tag]
  rw [hLHS, hRHS]
  rw [if_neg (by push_neg; intro _; rfl)]
  rw [if_pos ?_]
  constructor
  · intro hup
    have hd : s.data.map upChar = [] := congrArg String.data hup
    cases hsd : s.data with
    | nil => exact string_data_ne_nil hne hsd
    | cons a as =>
      rw [hsd] at hd
      simp at hd
  · cases hsd : s.data with
    | nil => exact absurd hsd (string_data_ne_nil hne)
    | cons a as =>
      show ((s.data.map upChar).head?) ≠ some '#'
      rw [hsd]
      simp only [List.map_cons, List.head?_cons, ne_eq, Option.some_inj]
      intro hup
      rw [upChar_hash_iff] at hup
      apply hhead
      rw [hsd, hup]
      rfl

/-- A normalized nonempty tag starts with `#`. -/
theorem _normalize_tag_head (s : String) :
    _normalize_tag s = "" ∨ (_normalize_tag s).data.head? = some '#' := by
  simp only [_normalize_tag]
  by_cases hc : pyUpper (pyStrip s) ≠ "" ∧ (pyUpper (pyStrip s)).data.head? ≠ some '#'
  · rw [if_pos hc]
    right
    rfl
  · rw [if_neg hc]
    push_neg at hc
    by_cases he : pyUpper (pyStrip s) = ""
    · left
      exact he
    · right
      exact hc he

/-- Win determination is invariant under normalizing the queried tag. -/
theorem _participant_is_win_norm (b : RawBattle) (t : String) :
    _participant_is_win_ranked_1v1 b (_normalize_tag t) =
      _participant_is_win_ranked_1v1 b t := by
  simp only [_participant_is_win_ranked_1v1, _normalize_tag_idem]

/-- Every tag in the top-player cohort is a `_normalize_tag` fixed point. -/
theorem topPlayers_normalized (cfg : Config) (t : String) (h : t ∈ topPlayers cfg) :
    _normalize_tag t = t := by
  unfold topPlayers at h
  rw [List.mem_filter] at h
  rcases List.mem_map.mp h.1 with ⟨raw, _, rfl⟩
  exact _normalize_tag_idem _

theorem foldl_invariant {α β : Type} (P : α → Prop) (f : α → β → α) (l : List β)
    (init : α) (h0 : P init) (hstep : ∀ a b, P a → P (f a b)) : P (l.foldl f init) := by
  induction l generalizing init with
  | nil => exact h0
  | cons x xs ih => exact ih _ (hstep _ _ h0)

theorem dictGet_mem {κ α : Type} [DecidableEq κ] (m : List (κ × α)) (k : κ) (v : α)
    (h : dictGet m k = some v) : (k, v) ∈ m := by
  induction m with
  | nil => simp [dictGet] at h
  | cons e rest ih =>
    simp only [dictGet] at h
    by_cases he : e.1 = k
    · rw [if_pos he] at h
      have hv : (k, v) = e := by
        obtain ⟨e1, e2⟩ := e
        cases he
        cases Option.some.inj h
        rfl
      rw [hv]
      exact List.mem_cons_self _ _
    · rw [if_neg he] at h
      exact List.mem_cons_of_mem _ (ih h)

theorem mem_bump_key {κ : Type} [DecidableEq κ] (m : List (κ × Counter)) (k : κ)
    (du dw : Nat) (e : κ × Counter) (he : e ∈ bump m k du dw) :
    e.1 = k ∨ ∃ e0 ∈ m, e0.1 = e.1 := by
  induction m with
  | nil =>
    simp only [bump, List.mem_singleton] at he
    left
    rw [he]
  | cons e0 rest ih =>
    simp only [bump] at he
    by_cases h : e0.1 = k
    · rw [if_pos h] at he
      rcases List.mem_cons.mp he with rfl | hm
      · left
        exact h
      · right
        exact ⟨e, List.mem_cons_of_mem _ hm, rfl⟩
    · rw [if_neg h] at he
      rcases List.mem_cons.mp he with rfl | hm
      · right
        exact ⟨e, List.mem_cons_self _ _, rfl⟩
      · rcases ih hm with hk | ⟨e1, he1, hke⟩
        · left
          exact hk
        · right
          exact ⟨e1, List.mem_cons_of_mem _ he1, hke⟩

/-- Every `player_decks` key's tag component is a normalized tag. -/
def pdTagsNormalized (st : ScanState) : Prop :=
  ∀ e ∈ st.playerDecks, _normalize_tag e.1.1 = e.1.1

theorem processParticipant_pd_norm (cfg : Config) (b : RawBattle)
    (part : RawParticipant) (st : ScanState) (h : pdTagsNormalized st) :
    pdTagsNormalized (processParticipant cfg b part st) := by
  unfold processParticipant
  by_cases h1 : _normalize_tag ((part.tag).getD "") = ""
  · rw [if_pos h1]
    exact h
  · rw [if_neg h1]
    cases hx : _extract_8_cards cfg part with
    | none => exact h
    | some obs =>
      intro e he
      simp only at he
      cases h2 : memStr (topPlayers cfg) (_normalize_tag ((part.tag).getD "")) with
      | true =>
        rw [h2, if_pos rfl] at he
        rcases mem_bump_key _ _ _ _ _ he with hk | ⟨e0, he0, hke⟩
        · rw [hk]
          exact _normalize_tag_idem _
        · rw [← hke]
          exact h e0 he0
      | false =>
        rw [h2] at he
        simp only [Bool.false_eq_true, if_false] at he
        exact h e he

theorem processBattle_pd_norm (cfg : Config) (st : ScanState) (b : RawBattle)
    (h : pdTagsNormalized st) : pdTagsNormalized (processBattle cfg st b) := by
  unfold processBattle
  by_cases h1 : ¬ is_ranked_1v1_battle b
  · rw [if_pos h1]
    exact h
  · rw [if_neg h1]
    dsimp only
    cases h2 : memStr st.seen (match_hash b) with
    | true =>
      rw [if_pos rfl]
      exact h
    | false =>
      simp only [Bool.false_eq_true, if_false]
      have hst1 : pdTagsNormalized
          { st with seen := match_hash b :: st.seen,
                    dedupedMatches := st.dedupedMatches + 1 } := h
      cases hteam : (b.team).getD [] with
      | nil => exact hst1
      | cons t0 ts =>
        cases ts with
        | nil =>
          cases hopp : (b.opponent).getD [] with
          | nil => exact hst1
          | cons o0 os =>
            cases os with
            | nil =>
              exact processParticipant_pd_norm _ _ _ _
                (processParticipant_pd_norm _ _ _ _ hst1)
            | cons _ _ => exact hst1
        | cons _ _ =>
          cases (b.opponent).getD [] with
          | nil => exact hst1
          | cons _ os => cases os <;> exact hst1

theorem scanAll_pd_norm (cfg : Config) : pdTagsNormalized (scanAll cfg) := by
  unfold scanAll
  apply foldl_invariant pdTagsNormalized
  · intro e he
    exact absurd he (List.not_mem_nil e)
  · intro st ptag hst
    apply foldl_invariant pdTagsNormalized
    · exact hst
    · intro st2 b hst2
      exact processBattle_pd_norm cfg st2 b hst2

theorem getC_bump_self {κ : Type} [DecidableEq κ] (m : List (κ × Counter)) (k : κ)
    (du dw : Nat) :
    getC (bump m k du dw) k = ⟨(getC m k).uses + du, (getC m k).wins + dw⟩ := by
  induction m with
  | nil => simp [bump, getC, dictGet]
  | cons e rest ih =>
    by_cases h : e.1 = k
    · simp [bump, getC, dictGet, h]
    · simp only [bump, if_neg h]
      simp only [getC, dictGet, if_neg h]
      exact ih

theorem getC_bump_ne {κ : Type} [DecidableEq κ] (m : List (κ × Counter)) (k k' : κ)
    (du dw : Nat) (h : k' ≠ k) : getC (bump m k du dw) k' = getC m k' := by
  induction m with
  | nil =>
    simp only [bump, getC, dictGet]
    rw [if_neg (fun he => h he.symm)]
  | cons e rest ih =>
    by_cases he : e.1 = k
    · simp only [bump, if_pos he, getC, dictGet]
      rw [if_neg (by rw [he]; exact fun hc => h hc.symm),
        if_neg (by rw [he]; exact fun hc => h hc.symm)]
    · simp only [bump, if_neg he, getC, dictGet]
      by_cases h2 : e.1 = k'
      · rw [if_pos h2, if_pos h2]
      · rw [if_neg h2, if_neg h2]
        exact ih

theorem getC_foldl_bump_not_mem {κ : Type} [DecidableEq κ] (keys : List κ)
    (m : List (κ × Counter)) (du dw : Nat) (k : κ) (hk : k ∉ keys) :
    getC (keys.foldl (fun acc k0 => bump acc k0 du dw) m) k = getC m k := by
  induction keys generalizing m with
  | nil => rfl
  | cons k0 rest ih =>
    simp only [List.foldl_cons]
    rw [ih _ (fun hm => hk (List.mem_cons_of_mem _ hm))]
    exact getC_bump_ne _ _ _ _ _ (fun he => hk (he ▸ List.mem_cons_self _ _))

theorem getC_foldl_bump_mem {κ : Type} [DecidableEq κ] (keys : List κ)
    (m : List (κ × Counter)) (du dw : Nat) (k : κ) (hk : k ∈ keys)
    (hnd : keys.Nodup) :
    getC (keys.foldl (fun acc k0 => bump acc k0 du dw) m) k =
      ⟨(getC m k).uses + du, (getC m k).wins + dw⟩ := by
  induction keys generalizing m with
  | nil => exact absurd hk (List.not_mem_nil k)
  | cons k0 rest ih =>
    simp only [List.foldl_cons]
    rcases List.mem_cons.mp hk with rfl | hmem
    · rw [getC_foldl_bump_not_mem _ _ _ _ _ (List.nodup_cons.mp hnd).1]
      exact getC_bump_self _ _ _ _
    · have hne : k ≠ k0 := by
        intro he
        exact (List.nodup_cons.mp hnd).1 (he ▸ hmem)
      rw [ih _ hmem (List.nodup_cons.mp hnd).2, getC_bump_ne _ _ _ _ _ hne]

/-- Bundled win/odds determination under a well-formed two-sided battle
with distinct normalized tags. -/
theorem win_of_sides (b : RawBattle) (t0 o0 part : RawParticipant)
    (hteam : b.team = some [t0]) (hopp : b.opponent = some [o0])
    (hpart : part = t0 ∨ part = o0)
    (hdist : _normalize_tag ((t0.tag).getD "") ≠ _normalize_tag ((o0.tag).getD "")) :
    _participant_is_win_ranked_1v1 b (_normalize_tag ((part.tag).getD "")) =
      decide ((part.crowns).getD 0 >
        (if part = t0 then (o0.crowns).getD 0 else (t0.crowns).getD 0)) := by
  have hto : t0 ≠ o0 := by
    intro he
    exact hdist (he ▸ rfl)
  unfold _participant_is_win_ranked_1v1
  rw [hteam, hopp]
  simp only [Option.getD_some]
  rcases hpart with rfl | rfl
  · rw [_normalize_tag_idem, if_pos rfl, if_pos rfl]
  · rw [_normalize_tag_idem, if_neg (fun hc => hdist hc.symm), if_pos rfl,
      if_neg (fun hc => hto hc.symm)]

theorem bump_mapOK {κ : Type} [DecidableEq κ] (m : List (κ × Counter)) (k : κ)
    (du dw : Nat) (h : mapOK m) (hdu : dw ≤ du) : mapOK (bump m k du dw) := by
  induction m with
  | nil =>
    intro e he
    simp only [bump, List.mem_singleton] at he
    rw [he]
    exact hdu
  | cons e0 rest ih =>
    intro e he
    simp only [bump] at he
    by_cases he0 : e0.1 = k
    · rw [if_pos he0] at he
      rcases List.mem_cons.mp he with rfl | hm
      · have := h e0 (List.mem_cons_self _ _)
        unfold counterOK at *
        simp only
        omega
      · exact h e (List.mem_cons_of_mem _ hm)
    · rw [if_neg he0] at he
      rcases List.mem_cons.mp he with rfl | hm
      · exact h e (List.mem_cons_self _ _)
      · exact ih (fun e2 he2 => h e2 (List.mem_cons_of_mem _ he2)) e hm

theorem foldl_bump_mapOK {κ α : Type} [DecidableEq κ] (l : List α) (f : α → κ)
    (m : List (κ × Counter)) (du dw : Nat) (h : mapOK m) (hdu : dw ≤ du) :
    mapOK (l.foldl (fun acc c => bump acc (f c) du dw) m) := by
  induction l generalizing m with
  | nil => exact h
  | cons c rest ih => exact ih _ (bump_mapOK _ _ _ _ h hdu)

theorem processParticipant_stateOK (cfg : Config) (b : RawBattle)
    (part : RawParticipant) (st : ScanState) (h : stateOK st) :
    stateOK (processParticipant cfg b part st) := by
  obtain ⟨h1, h2, h3, h4⟩ := h
  unfold processParticipant
  by_cases ht : _normalize_tag ((part.tag).getD "") = ""
  · rw [if_pos ht]
    exact ⟨h1, h2, h3, h4⟩
  · rw [if_neg ht]
    cases hx : _extract_8_cards cfg part with
    | none => exact ⟨h1, h2, h3, h4⟩
    | some obs =>
      have hdw : (if _participant_is_win_ranked_1v1 b
          (_normalize_tag ((part.tag).getD "")) = true then 1 else 0) ≤ 1 := by
        split_ifs <;> omega
      refine ⟨?_, ?_, ?_, ?_⟩
      · simp only
        cases hm : memStr (topPlayers cfg) (_normalize_tag ((part.tag).getD "")) with
        | true =>
          rw [if_pos rfl]
          exact bump_mapOK _ _ _ _ h1 hdw
        | false =>
          simp only [Bool.false_eq_true, if_false]
          exact h1
      · exact bump_mapOK _ _ _ _ h2 hdw
      · exact bump_mapOK _ _ _ _ h3 hdw
      · exact foldl_bump_mapOK _ _ _ _ _ h4 hdw

theorem processBattle_stateOK (cfg : Config) (st : ScanState) (b : RawBattle)
    (h : stateOK st) : stateOK (processBattle cfg st b) := by
  unfold processBattle
  by_cases h1 : ¬ is_ranked_1v1_battle b
  · rw [if_pos h1]
    exact h
  · rw [if_neg h1]
    dsimp only
    cases h2 : memStr st.seen (match_hash b) with
    | true =>
      rw [if_pos rfl]
      exact h
    | false =>
      simp only [Bool.false_eq_true, if_false]
      have hst1 : stateOK
          { st with seen := match_hash b :: st.seen,
                    dedupedMatches := st.dedupedMatches + 1 } := h
      cases (b.team).getD [] with
      | nil => exact hst1
      | cons t0 ts =>
        cases ts with
        | nil =>
          cases (b.opponent).getD [] with
          | nil => exact hst1
          | cons o0 os =>
            cases os with
            | nil =>
              exact processParticipant_stateOK _ _ _ _
                (processParticipant_stateOK _ _ _ _ hst1)
            | cons _ _ => exact hst1
        | cons _ _ =>
          cases (b.opponent).getD [] with
          | nil => exact hst1
          | cons _ os => cases os <;> exact hst1

theorem scanAll_stateOK (cfg : Config) : stateOK (scanAll cfg) := by
  unfold scanAll
  apply foldl_invariant stateOK
  · exact ⟨fun e he => absurd he (List.not_mem_nil e),
      fun e he => absurd he (List.not_mem_nil e),
      fun e he => absurd he (List.not_mem_nil e),
      fun e he => absurd he (List.not_mem_nil e)⟩
  · intro st ptag hst
    apply foldl_invariant stateOK
    · exact hst
    · intro st2 b2 hst2
      exact processBattle_stateOK cfg st2 b2 hst2

theorem foldl_bump_mapOK_pairs {κ α : Type} [DecidableEq κ] (l : List α) (f : α → κ)
    (m : List (κ × Counter)) (du dw : Nat) (h : mapOK m) (hdu : dw ≤ du) :
    mapOK (l.foldl (fun acc c => bump acc (f c) du dw) m) :=
  foldl_bump_mapOK l f m du dw h hdu

theorem derive_mapOK (st : ScanState) (h : mapOK st.playerDecks) :
    mapOK (derivePlayerTypeCards st) := by
  unfold derivePlayerTypeCards
  have hgen : ∀ (entries : List ((String × String) × Counter))
      (acc : List ((String × String × Int × String) × Counter)),
      (∀ e ∈ entries, counterOK e.2) → mapOK acc →
      mapOK (entries.foldl
        (fun acc e =>
          ((dictGet st.deckHashToCards e.1.2).getD []).foldl
            (fun acc2 c => bump acc2 (e.1.1, resolvedType st e.1.2, c.card_id,
              c.card_variant) e.2.uses e.2.wins)
            acc)
        acc) := by
    intro entries
    induction entries with
    | nil => intro acc _ hacc; exact hacc
    | cons e rest ih =>
      intro acc hent hacc
      apply ih
      · intro e2 he2
        exact hent e2 (List.mem_cons_of_mem _ he2)
      · exact foldl_bump_mapOK _ _ _ _ _ hacc (hent e (List.mem_cons_self _ _))
  exact hgen st.playerDecks [] h (fun e he => absurd he (List.not_mem_nil e))

theorem extract_some_obs (cfg : Config) (p : RawParticipant) (obs : List CardObs)
    (h : _extract_8_cards cfg p = some obs) :
    obs.length = 8 ∧ (obs.map fun o => (o.card_id, o.card_variant)).Nodup := by
  unfold _extract_8_cards at h
  by_cases hlen : ((p.cards).getD []).length < 8
  · rw [if_pos hlen] at h
    exact absurd h (by simp)
  · rw [if_neg hlen] at h
    cases hb : buildObs cfg 1 (((p.cards).getD []).take 8) with
    | none =>
      rw [hb] at h
      simp at h
    | some out =>
      rw [hb] at h
      dsimp only at h
      by_cases hd : ((out.map fun x => (x.card_id, x.card_variant)).dedup).length = 8
      · rw [if_pos hd] at h
        cases h
        obtain ⟨hl, _⟩ := buildObs_some cfg 1 _ _ hb
        have h8 : obs.length = 8 := by
          rw [hl, List.length_take]
          omega
        refine ⟨h8, ?_⟩
        have hsub := List.dedup_sublist (obs.map fun x => (x.card_id, x.card_variant))
        have heq := hsub.eq_of_length (by rw [hd, List.length_map, h8])
        exact heq ▸ List.nodup_dedup _
      · rw [if_neg hd] at h
        simp at h

theorem nodup_type_keys (dtype : String) (l : List (Int × String)) (h : l.Nodup) :
    (l.map fun p => (dtype, p.1, p.2)).Nodup := by
  refine List.Nodup.map ?_ h
  intro p q hpq
  exact Prod.ext (congrArg (fun x => x.2.1) hpq) (congrArg (fun x => x.2.2) hpq)

theorem getC_foldl_bump_obs (obs : List CardObs) (dtype : String)
    (m : List ((String × Int × String) × Counter)) (du dw : Nat) (c : CardObs)
    (hc : c ∈ obs) (hnd : (obs.map fun o => (o.card_id, o.card_variant)).Nodup) :
    getC (obs.foldl (fun acc x => bump acc (dtype, x.card_id, x.card_variant) du dw) m)
      (dtype, c.card_id, c.card_variant) =
      ⟨(getC m (dtype, c.card_id, c.card_variant)).uses + du,
       (getC m (dtype, c.card_id, c.card_variant)).wins + dw⟩ := by
  have hfold : obs.foldl (fun acc x => bump acc (dtype, x.card_id, x.card_variant) du dw) m
      = (obs.map fun x => (dtype, x.card_id, x.card_variant)).foldl
          (fun acc k => bump acc k du dw) m :=
    (List.foldl_map (fun x : CardObs => (dtype, x.card_id, x.card_variant))
      (fun acc k => bump acc k du dw) obs m).symm
  rw [hfold]
  apply getC_foldl_bump_mem
  · exact List.mem_map.mpr ⟨c, hc, rfl⟩
  · rw [show (obs.map fun x => (dtype, x.card_id, x.card_variant)) =
        ((obs.map fun o => (o.card_id, o.card_variant)).map fun p => (dtype, p.1, p.2)) by
      rw [List.map_map]
      rfl]
    exact nodup_type_keys _ _ hnd

/-- C4 (amended): `wins ≤ uses` holds for every counter of every aggregate
map at the end of the scan and of the derivation pass; and whenever a
valid (deck, participant, match) pass runs for a battle whose two sides
carry distinct normalized tags, each meta counter it touches gains
exactly 1 use, and gains 1 win exactly when that participant's crown
count strictly exceeds the other side's.  (The distinct-tag proviso is
what the original claim lacks: see the counterexample.) -/
theorem aggregate_counter_spec :
    (∀ cfg : Config, stateOK (scanAll cfg) ∧
      mapOK (derivePlayerTypeCards (scanAll cfg))) ∧
    (∀ (cfg : Config) (b : RawBattle) (t0 o0 part : RawParticipant) (st : ScanState)
      (obs : List CardObs),
      b.team = some [t0] → b.opponent = some [o0] →
      part = t0 ∨ part = o0 →
      _normalize_tag ((t0.tag).getD "") ≠ _normalize_tag ((o0.tag).getD "") →
      _normalize_tag ((part.tag).getD "") ≠ "" →
      _extract_8_cards cfg part = some obs →
      (let dh := deckHashOf obs
       let dtype := pyOrS (cfg.overrides dh) (classify_deck cfg (names_for_classifier obs))
       let dw : Nat :=
         if (part.crowns).getD 0 >
             (if part = t0 then (o0.crowns).getD 0 else (t0.crowns).getD 0) then 1 else 0
       let st2 := processParticipant cfg b part st
       getC st2.metaDeckTypes dtype =
         ⟨(getC st.metaDeckTypes dtype).uses + 1, (getC st.metaDeckTypes dtype).wins + dw⟩ ∧
       getC st2.metaTypeDeckIds (dtype, dh) =
         ⟨(getC st.metaTypeDeckIds (dtype, dh)).uses + 1,
          (getC st.metaTypeDeckIds (dtype, dh)).wins + dw⟩ ∧
       ∀ c ∈ obs, getC st2.metaTypeCards (dtype, c.card_id, c.card_variant) =
         ⟨(getC st.metaTypeCards (dtype, c.card_id, c.card_variant)).uses + 1,
          (getC st.metaTypeCards (dtype, c.card_id, c.card_variant)).wins + dw⟩)) := by
  constructor
  · intro cfg
    refine ⟨scanAll_stateOK cfg, ?_⟩
    exact derive_mapOK _ (scanAll_stateOK cfg).1
  · intro cfg b t0 o0 part st obs hteam hopp hpart hdist htag hobs
    have hwin := win_of_sides b t0 o0 part hteam hopp hpart hdist
    obtain ⟨_, hnd⟩ := extract_some_obs cfg part obs hobs
    unfold processParticipant
    rw [if_neg htag, hobs]
    simp only [hwin, decide_eq_true_eq]
    refine ⟨getC_bump_self _ _ _ _, getC_bump_self _ _ _ _, ?_⟩
    intro c hc
    exact getC_foldl_bump_obs obs _ _ _ _ c hc hnd

/-- Witness for C4's amended statement: processing the winning team
participant of `battleViewA` from the empty state adds one use and one
win to the touched type and type+deck meta counters. -/
theorem aggregate_counter_spec_witness :
    getC (processParticipant noLogCfg battleViewA partA initState).metaDeckTypes
        "Hybrid" = ⟨1, 1⟩ ∧
      getC (processParticipant noLogCfg battleViewA partA initState).metaTypeDeckIds
        ("Hybrid", "00f56a207555a2e09b15dd7d9a508a4baa390222") = ⟨1, 1⟩ := by
  have h := aggregate_counter_spec.2 noLogCfg battleViewA partA partB partA initState obs8
    rfl rfl (Or.inl rfl) (by decide) (by decide) (by decide)
  exact ⟨h.1, h.2.1⟩

/-- C10: every player tag used as a key in the aggregates, compared for
top-player cohort membership, or compared during win determination is
first normalized by the same total function `_normalize_tag` (stripped,
uppercased, `#`-prefixed when non-empty); the normalization is
idempotent, so tag comparisons are insensitive to case and to the
presence or absence of the leading `#`. -/
theorem normalize_tag_spec :
    (∀ s, _normalize_tag (_normalize_tag s) = _normalize_tag s) ∧
      (∀ s, _normalize_tag s = "" ∨ (_normalize_tag s).data.head? = some '#') ∧
      (∀ s t, pyUpper s = pyUpper t → _normalize_tag s = _normalize_tag t) ∧
      (∀ s, pyStrip s = s → s ≠ "" → s.data.head? ≠ some '#' →
        _normalize_tag ("#" ++ s) = _normalize_tag s) ∧
      (∀ b t, _participant_is_win_ranked_1v1 b (_normalize_tag t) =
        _participant_is_win_ranked_1v1 b t) ∧
      (∀ cfg t, t ∈ topPlayers cfg → _normalize_tag t = t) ∧
      (∀ cfg, ∀ e ∈ (scanAll cfg).playerDecks, _normalize_tag e.1.1 = e.1.1) :=
  ⟨_normalize_tag_idem, _normalize_tag_head, _normalize_tag_congr_upper,
    _normalize_tag_hash, _participant_is_win_norm, topPlayers_normalized,
    fun cfg e he => scanAll_pd_norm cfg e he⟩

/-- Witness for C10: concrete instances of the case-insensitivity,
`#`-insensitivity, cohort and aggregate-key conjuncts. -/
theorem normalize_tag_spec_witness :
    _normalize_tag "ab" = _normalize_tag "AB" ∧
      _normalize_tag ("#" ++ "AB") = _normalize_tag "AB" ∧
      _normalize_tag "#BBB" = "#BBB" ∧
      _normalize_tag "#AAA" = "#AAA" :=
  ⟨normalize_tag_spec.2.2.1 "ab" "AB" (by decide),
   normalize_tag_spec.2.2.2.1 "AB" (by decide) (by decide) (by decide),
   normalize_tag_spec.2.2.2.2.2.1 swapCfg "#BBB" (by decide),
   normalize_tag_spec.2.2.2.2.2.2 oneCfg
     (("#AAA", "00f56a207555a2e09b15dd7d9a508a4baa390222"), ⟨1, 1⟩)
     (dictGet_mem _ _ _ (by decide))⟩

/-- Witness for C6: a full valid participant extracts 8 distinct-pair
observations, and a 7-card participant extracts nothing. -/
theorem extract_8_cards_spec_witness :
    (obs8.length = 8 ∧ (obs8.map fun o => (o.card_id, o.card_variant)).Nodup) ∧
      _extract_8_cards noLogCfg ⟨some "#AAA", some 1, some ((mkCards8 1).take 7)⟩ = none :=
  ⟨(extract_8_cards_spec noLogCfg partA).2 obs8 (by decide),
   ((extract_8_cards_spec noLogCfg ⟨some "#AAA", some 1, some ((mkCards8 1).take 7)⟩).1).mpr
     (Or.inl (by decide))⟩

/-! ## C5: the derivation pass fans each (player, deck) counter out to
all 8 of the deck's cards -/

theorem dictGet_append_left {κ α : Type} [DecidableEq κ] (m l : List (κ × α)) (k : κ)
    (v : α) (h : dictGet m k = some v) : dictGet (m ++ l) k = some v := by
  induction m with
  | nil => simp [dictGet] at h
  | cons e rest ih =>
    simp only [dictGet] at h
    simp only [List.cons_append, dictGet]
    by_cases he : e.1 = k
    · rw [if_pos he] at h ⊢
      exact h
    · rw [if_neg he] at h ⊢
      exact ih h

theorem dictGet_append_right {κ α : Type} [DecidableEq κ] (m : List (κ × α)) (k : κ)
    (v : α) (h : dictGet m k = none) : dictGet (m ++ [(k, v)]) k = some v := by
  induction m with
  | nil => simp [dictGet]
  | cons e rest ih =>
    simp only [dictGet] at h
    simp only [List.cons_append, dictGet]
    by_cases he : e.1 = k
    · rw [if_pos he] at h
      exact absurd h (by simp)
    · rw [if_neg he] at h ⊢
      exact ih h

theorem dictGet_append_self_ne_none {κ α : Type} [DecidableEq κ] (m : List (κ × α))
    (k : κ) (v : α) : dictGet (m ++ [(k, v)]) k ≠ none := by
  cases hg : dictGet m k with
  | some w =>
    rw [dictGet_append_left _ _ _ _ hg]
    simp
  | none =>
    rw [dictGet_append_right _ _ _ hg]
    simp

theorem dictGet_append_singleton_ne_none {κ α : Type} [DecidableEq κ]
    (m : List (κ × α)) (k0 k : κ) (v : α)
    (h : dictGet (m ++ [(k0, v)]) k ≠ none) :
    dictGet m k ≠ none ∨ k = k0 := by
  induction m with
  | nil =>
    simp only [List.nil_append, dictGet] at h
    by_cases he : k0 = k
    · right
      exact he.symm
    · rw [if_neg he] at h
      exact absurd rfl h
  | cons e rest ih =>
    simp only [List.cons_append, dictGet] at h
    simp only [dictGet]
    by_cases he : e.1 = k
    · left
      rw [if_pos he]
      simp
    · rw [if_neg he] at h
      rw [if_neg he]
      exact ih h

theorem processParticipant_lenInv (cfg : Config) (b : RawBattle)
    (part : RawParticipant) (st : ScanState) (h : lenInv st) :
    lenInv (processParticipant cfg b part st) := by
  obtain ⟨h1, h2, h3⟩ := h
  unfold processParticipant
  by_cases ht : _normalize_tag ((part.tag).getD "") = ""
  · rw [if_pos ht]
    exact ⟨h1, h2, h3⟩
  · rw [if_neg ht]
    cases hx : _extract_8_cards cfg part with
    | none => exact ⟨h1, h2, h3⟩
    | some obs =>
      have hlen8 : obs.length = 8 := (extract_some_obs cfg part obs hx).1
      by_cases habs : dictGet st.deckHashToType (deckHashOf obs) = none
      · refine ⟨?_, ?_, ?_⟩
        · simp only [if_pos habs]
          intro e he
          rcases List.mem_append.mp he with hm | hm
          · exact h1 e hm
          · rw [List.mem_singleton.mp hm]
            exact hlen8
        · simp only [if_pos habs]
          intro dh' hne
          cases hg : dictGet st.deckHashToType dh' with
          | some w =>
            have hco := h2 dh' (by rw [hg]; simp)
            cases hgc : dictGet st.deckHashToCards dh' with
            | some v =>
              rw [dictGet_append_left _ _ _ _ hgc]
              simp
            | none => exact absurd hgc hco
          | none =>
            rcases dictGet_append_singleton_ne_none _ _ _ _ hne with hold | rfl
            · exact absurd hg hold
            · exact dictGet_append_self_ne_none _ _ _
        · simp only [if_pos habs]
          intro e he
          cases hmem : memStr (topPlayers cfg) (_normalize_tag ((part.tag).getD "")) with
          | true =>
            rw [hmem, if_pos rfl] at he
            rcases mem_bump_key _ _ _ _ _ he with hk | ⟨e0, he0, hke⟩
            · rw [hk]
              exact dictGet_append_self_ne_none st.deckHashToCards _ obs
            · rw [← hke]
              have hco := h3 e0 he0
              cases hgc : dictGet st.deckHashToCards e0.1.2 with
              | some v =>
                rw [dictGet_append_left _ _ _ _ hgc]
                simp
              | none => exact absurd hgc hco
          | false =>
            rw [hmem] at he
            simp only [Bool.false_eq_true, if_false] at he
            have hco := h3 e he
            cases hgc : dictGet st.deckHashToCards e.1.2 with
            | some v =>
              rw [dictGet_append_left _ _ _ _ hgc]
              simp
            | none => exact absurd hgc hco
      · refine ⟨?_, ?_, ?_⟩
        · simp only [if_neg habs]
          exact h1
        · simp only [if_neg habs]
          exact h2
        · simp only [if_neg habs]
          intro e he
          cases hmem : memStr (topPlayers cfg) (_normalize_tag ((part.tag).getD "")) with
          | true =>
            rw [hmem, if_pos rfl] at he
            rcases mem_bump_key _ _ _ _ _ he with hk | ⟨e0, he0, hke⟩
            · rw [hk]
              exact h2 _ habs
            · rw [← hke]
              exact h3 e0 he0
          | false =>
            rw [hmem] at he
            simp only [Bool.false_eq_true, if_false] at he
            exact h3 e he

theorem processBattle_lenInv (cfg : Config) (st : ScanState) (b : RawBattle)
    (h : lenInv st) : lenInv (processBattle cfg st b) := by
  unfold processBattle
  by_cases h1 : ¬ is_ranked_1v1_battle b
  · rw [if_pos h1]
    exact h
  · rw [if_neg h1]
    dsimp only
    cases h2 : memStr st.seen (match_hash b) with
    | true =>
      rw [if_pos rfl]
      exact h
    | false =>
      simp only [Bool.false_eq_true, if_false]
      have hst1 : lenInv
          { st with seen := match_hash b :: st.seen,
                    dedupedMatches := st.dedupedMatches + 1 } := h
      cases (b.team).getD [] with
      | nil => exact hst1
      | cons t0 ts =>
        cases ts with
        | nil =>
          cases (b.opponent).getD [] with
          | nil => exact hst1
          | cons o0 os =>
            cases os with
            | nil =>
              exact processParticipant_lenInv _ _ _ _
                (processParticipant_lenInv _ _ _ _ hst1)
            | cons _ _ => exact hst1
        | cons _ _ =>
          cases (b.opponent).getD [] with
          | nil => exact hst1
          | cons _ os => cases os <;> exact hst1

theorem scanAll_lenInv (cfg : Config) : lenInv (scanAll cfg) := by
  unfold scanAll
  apply foldl_invariant lenInv
  · refine ⟨fun e he => absurd he (List.not_mem_nil e), ?_,
      fun e he => absurd he (List.not_mem_nil e)⟩
    intro dh hne
    exact absurd rfl hne
  · intro st ptag hst
    apply foldl_invariant lenInv
    · exact hst
    · intro st2 b hst2
      exact processBattle_lenInv cfg st2 b hst2

theorem sumPTC_bump (m : List ((String × String × Int × String) × Counter))
    (k : String × String × Int × String) (du dw : Nat) (p t : String) :
    sumPTC Counter.uses p t (bump m k du dw) =
      sumPTC Counter.uses p t m + (if k.1 = p ∧ k.2.1 = t then du else 0) ∧
    sumPTC Counter.wins p t (bump m k du dw) =
      sumPTC Counter.wins p t m + (if k.1 = p ∧ k.2.1 = t then dw else 0) := by
  induction m with
  | nil =>
    constructor <;> by_cases hk : k.1 = p ∧ k.2.1 = t <;>
      simp [bump, sumPTC, hk]
  | cons e rest ih =>
    by_cases he : e.1 = k
    · simp only [bump, if_pos he, sumPTC]
      rw [← he]
      constructor <;> by_cases hp : e.1.1 = p ∧ e.1.2.1 = t <;>
        simp [hp] <;> omega
    · simp only [bump, if_neg he, sumPTC]
      obtain ⟨ih1, ih2⟩ := ih
      rw [ih1, ih2]
      constructor <;> omega

theorem sumPTC_foldl_cards (cards : List CardObs) (p0 t0 : String) (du dw : Nat)
    (m : List ((String × String × Int × String) × Counter)) (p t : String) :
    sumPTC Counter.uses p t
        (cards.foldl (fun acc c => bump acc (p0, t0, c.card_id, c.card_variant) du dw) m) =
      sumPTC Counter.uses p t m +
        (if p0 = p ∧ t0 = t then cards.length * du else 0) ∧
    sumPTC Counter.wins p t
        (cards.foldl (fun acc c => bump acc (p0, t0, c.card_id, c.card_variant) du dw) m) =
      sumPTC Counter.wins p t m +
        (if p0 = p ∧ t0 = t then cards.length * dw else 0) := by
  induction cards generalizing m with
  | nil => constructor <;> simp [sumPTC]
  | cons c cs ih =>
    simp only [List.foldl_cons, List.length_cons]
    obtain ⟨ih1, ih2⟩ := ih (bump m (p0, t0, c.card_id, c.card_variant) du dw)
    have hb := sumPTC_bump m (p0, t0, c.card_id, c.card_variant) du dw p t
    have hb1 : sumPTC Counter.uses p t (bump m (p0, t0, c.card_id, c.card_variant) du dw) =
        sumPTC Counter.uses p t m + (if p0 = p ∧ t0 = t then du else 0) := hb.1
    have hb2 : sumPTC Counter.wins p t (bump m (p0, t0, c.card_id, c.card_variant) du dw) =
        sumPTC Counter.wins p t m + (if p0 = p ∧ t0 = t then dw else 0) := hb.2
    constructor
    · rw [ih1, hb1]
      by_cases hpt : p0 = p ∧ t0 = t
      · simp only [if_pos hpt]
        rw [Nat.add_mul]
        omega
      · simp only [if_neg hpt]
    · rw [ih2, hb2]
      by_cases hpt : p0 = p ∧ t0 = t
      · simp only [if_pos hpt]
        rw [Nat.add_mul]
        omega
      · simp only [if_neg hpt]

theorem sumPTC_derive_fold (st : ScanState)
    (entries : List ((String × String) × Counter))
    (acc : List ((String × String × Int × String) × Counter)) (p t : String) :
    sumPTC Counter.uses p t
        (entries.foldl
          (fun acc e =>
            ((dictGet st.deckHashToCards e.1.2).getD []).foldl
              (fun acc2 c => bump acc2 (e.1.1, resolvedType st e.1.2, c.card_id,
                c.card_variant) e.2.uses e.2.wins)
              acc)
          acc) =
      sumPTC Counter.uses p t acc + fanContrib Counter.uses st p t entries ∧
    sumPTC Counter.wins p t
        (entries.foldl
          (fun acc e =>
            ((dictGet st.deckHashToCards e.1.2).getD []).foldl
              (fun acc2 c => bump acc2 (e.1.1, resolvedType st e.1.2, c.card_id,
                c.card_variant) e.2.uses e.2.wins)
              acc)
          acc) =
      sumPTC Counter.wins p t acc + fanContrib Counter.wins st p t entries := by
  induction entries generalizing acc with
  | nil => constructor <;> simp [fanContrib]
  | cons e rest ih =>
    simp only [List.foldl_cons, fanContrib]
    obtain ⟨ih1, ih2⟩ := ih
      (((dictGet st.deckHashToCards e.1.2).getD []).foldl
        (fun acc2 c => bump acc2 (e.1.1, resolvedType st e.1.2, c.card_id,
          c.card_variant) e.2.uses e.2.wins)
        acc)
    obtain ⟨hc1, hc2⟩ := sumPTC_foldl_cards ((dictGet st.deckHashToCards e.1.2).getD [])
      e.1.1 (resolvedType st e.1.2) e.2.uses e.2.wins acc p t
    constructor
    · rw [ih1, hc1]
      omega
    · rw [ih2, hc2]
      omega

theorem fanContrib_eight (st : ScanState) (p t : String)
    (entries : List ((String × String) × Counter))
    (hmem : ∀ e ∈ entries, dictGet st.deckHashToCards e.1.2 ≠ none)
    (hlen : ∀ e ∈ st.deckHashToCards, e.2.length = 8) :
    fanContrib Counter.uses st p t entries = 8 * sumPDAux Counter.uses st p t entries ∧
    fanContrib Counter.wins st p t entries = 8 * sumPDAux Counter.wins st p t entries := by
  induction entries with
  | nil => simp [fanContrib, sumPDAux]
  | cons e rest ih =>
    have hne := hmem e (List.mem_cons_self _ _)
    obtain ⟨l, hl⟩ : ∃ l, dictGet st.deckHashToCards e.1.2 = some l := by
      cases hg : dictGet st.deckHashToCards e.1.2 with
      | none => exact absurd hg hne
      | some l => exact ⟨l, rfl⟩
    have hlen8 : l.length = 8 := hlen (e.1.2, l) (dictGet_mem _ _ _ hl)
    obtain ⟨ih1, ih2⟩ := ih fun e2 he2 => hmem e2 (List.mem_cons_of_mem _ he2)
    constructor
    · simp only [fanContrib, sumPDAux, hl, Option.getD_some, hlen8, ih1]
      by_cases hpt : e.1.1 = p ∧ resolvedType st e.1.2 = t
      · simp only [if_pos hpt]
        rw [Nat.mul_add]
      · simp only [if_neg hpt]
        omega
    · simp only [fanContrib, sumPDAux, hl, Option.getD_some, hlen8, ih2]
      by_cases hpt : e.1.1 = p ∧ resolvedType st e.1.2 = t
      · simp only [if_pos hpt]
        rw [Nat.mul_add]
      · simp only [if_neg hpt]
        omega

/-- C5: after any full run, the `player_type_cards` map is the fan-out of
`player_decks`: for every player `p` and archetype `t`, the sum of `p`'s
per-card uses (respectively wins) over all card entries under `t` equals
8 times the sum of `p`'s per-deck counters over the decks whose resolved
archetype is `t` — each (player, deck) counter contributed its totals
identically to every one of that deck's 8 card entries. -/
theorem fanout_spec (cfg : Config) (p t : String) :
    sumPTC Counter.uses p t (derivePlayerTypeCards (scanAll cfg)) =
      8 * sumPD Counter.uses (scanAll cfg) p t ∧
    sumPTC Counter.wins p t (derivePlayerTypeCards (scanAll cfg)) =
      8 * sumPD Counter.wins (scanAll cfg) p t := by
  obtain ⟨hc1, hc2, hc3⟩ := scanAll_lenInv cfg
  obtain ⟨hd1, hd2⟩ := sumPTC_derive_fold (scanAll cfg) (scanAll cfg).playerDecks [] p t
  obtain ⟨hf1, hf2⟩ := fanContrib_eight (scanAll cfg) p t (scanAll cfg).playerDecks hc3 hc1
  constructor
  · have hD : sumPTC Counter.uses p t (derivePlayerTypeCards (scanAll cfg)) =
        sumPTC Counter.uses p t [] +
          fanContrib Counter.uses (scanAll cfg) p t (scanAll cfg).playerDecks := hd1
    rw [hD, hf1]
    simp [sumPTC, sumPD]
  · have hD : sumPTC Counter.wins p t (derivePlayerTypeCards (scanAll cfg)) =
        sumPTC Counter.wins p t [] +
          fanContrib Counter.wins (scanAll cfg) p t (scanAll cfg).playerDecks := hd2
    rw [hD, hf2]
    simp [sumPTC, sumPD]

end ClashDB
